import Mathlib

/-!
Verification of the imageparse CD-ROM image access library.

The definitions below are shallow embeddings of the Rust sources:
src/index.rs and src/msf_index.rs (MSF/LBA arithmetic), src/sbi.rs
(SBI sidecar loader), src/chd.rs and src/chd/chd_thread.rs (CHD backend),
and src/cue.rs (CUE/BIN backend).  Machine integers (u8/u32) are modelled
as Nat; wrap-around subtraction is written explicitly modulo 2^32 where
the source performs an unguarded u32 subtraction.  Fallible operations
return Except.  File contents and decompressed hunk data are modelled as
lists of bytes (Nat values below 256).
-/

set_option maxRecDepth 10000

/-- Minute/second/frame triple, not BCD encoded (struct MsfIndex in
src/index.rs; src/msf_index.rs defines the same shape). -/
structure MsfIndex where
  m : Nat
  s : Nat
  f : Nat
deriving DecidableEq, Repr

/-- Error type of the MSF module (enum MsfParseError in src/index.rs). -/
inductive MsfParseError where
  | ParseIntError
  | OutOfRangeError
  | InvalidMsfError
deriving DecidableEq, Repr

/-- Decidable equality for Except results, used to evaluate the embedded
fallible operations on concrete inputs. -/
instance {ε α : Type} [DecidableEq ε] [DecidableEq α] :
    DecidableEq (Except ε α) := fun x y =>
  match x, y with
  | .ok a, .ok b =>
    if h : a = b then .isTrue (h ▸ rfl) else .isFalse fun hc => h (Except.ok.inj hc)
  | .error a, .error b =>
    if h : a = b then .isTrue (h ▸ rfl) else .isFalse fun hc => h (Except.error.inj hc)
  | .ok _, .error _ => .isFalse fun hc => Except.noConfusion hc
  | .error _, .ok _ => .isFalse fun hc => Except.noConfusion hc

namespace MsfIndex

/-- MsfIndex::new from src/index.rs: range-check the three fields. -/
def new (m s f : Nat) : Except MsfParseError MsfIndex :=
  if m > 99 || s > 59 || f > 74 then
    .error .OutOfRangeError
  else
    .ok ⟨m, s, f⟩

/-- MsfIndex::from_bcd_values from src/index.rs.  The nibble checks
(x & 0xf0) > 0x90 and (x & 0x0f) > 0x09 on a byte are x / 16 > 9 and
x % 16 > 9 for inputs below 256. -/
def from_bcd_values (m_bcd s_bcd f_bcd : Nat) : Except MsfParseError MsfIndex :=
  if m_bcd / 16 > 9 || m_bcd % 16 > 9 ||
     s_bcd / 16 > 9 || s_bcd % 16 > 9 ||
     f_bcd / 16 > 9 || f_bcd % 16 > 9 then
    .error .OutOfRangeError
  else
    new ((m_bcd / 16) * 10 + m_bcd % 16)
        ((s_bcd / 16) * 10 + s_bcd % 16)
        ((f_bcd / 16) * 10 + f_bcd % 16)

/-- MsfIndex::from_sector_number from src/index.rs.  The u64 quotients are
cast to u8 before the range check, hence the explicit mod 256. -/
def from_sector_number (sector_no : Nat) : Except MsfParseError MsfIndex :=
  let m := sector_no / (60 * 75)
  let rest := sector_no - m * 60 * 75
  let s := rest / 75
  let f := rest - s * 75
  new (m % 256) (s % 256) (f % 256)

/-- MsfIndex::to_sector_number from src/index.rs. -/
def to_sector_number (x : MsfIndex) : Nat :=
  x.m * 60 * 75 + x.s * 75 + x.f

/-- MsfIndex::to_bcd_values from src/index.rs. -/
def to_bcd_values (x : MsfIndex) : Nat × Nat × Nat :=
  ((x.m / 10) * 16 + x.m % 10,
   (x.s / 10) * 16 + x.s % 10,
   (x.f / 10) * 16 + x.f % 10)

/-- Modelled from the spec: the newer revision of the index module (used by
src/cue.rs and src/chd.rs but absent from src) exposes the LBA conversion
as MsfIndex::from_lba; spec section 4.A defines it exactly as
from_sector_number (LBA = (m*60 + s)*75 + f). -/
def from_lba (lba : Nat) : Except MsfParseError MsfIndex :=
  from_sector_number lba

/-- Modelled from the spec: MsfIndex::to_lba of the newer index module
revision, identical to to_sector_number. -/
def to_lba (x : MsfIndex) : Nat :=
  to_sector_number x

end MsfIndex

namespace msf_index

/-- MsfIndex::from_sectors from src/msf_index.rs.  Note the source divides
the remainder by 60 (not 75) when extracting the seconds field. -/
def from_sectors (sectors : Nat) : Except MsfParseError MsfIndex :=
  let m := sectors / (60 * 75)
  let rest := sectors - m * 60 * 75
  let s := rest / 60
  let rest2 := rest - s * 60
  let f := rest2
  MsfIndex.new (m % 256) (s % 256) (f % 256)

/-- MsfIndex::to_sectors from src/msf_index.rs. -/
def to_sectors (x : MsfIndex) : Nat :=
  x.m * 60 * 75 + x.s * 75 + x.f

end msf_index

/-- Error type of the SBI loader (enum SbiParseError in src/sbi.rs). -/
inductive SbiParseError where
  | MsfParseError (e : MsfParseError)
  | IoError
  | InvalidMode
  | NotAnSbiFile
deriving DecidableEq, Repr

/-- Record walk of load_sbi_file from src/sbi.rs: the loop starting at
byte offset 4, with the loop condition index + 3 < len.  The MSF of each
record is inserted before the mode byte is inspected; mode 1 skips 10
payload bytes, any other mode up to 3 skips 3 payload bytes, and a mode
above 3 aborts with InvalidMode. -/
def sbiWalk (data : List Nat) (index : Nat) (acc : Finset Nat) :
    Except SbiParseError (Finset Nat) :=
  if h : index + 3 < data.length then
    match MsfIndex.from_bcd_values (data.getD index 0) (data.getD (index + 1) 0)
        (data.getD (index + 2) 0) with
    | .error e => .error (.MsfParseError e)
    | .ok msf =>
      if data.getD (index + 3) 0 == 1 then
        sbiWalk data (index + 4 + 10) (insert msf.to_lba acc)
      else if data.getD (index + 3) 0 ≤ 3 then
        sbiWalk data (index + 4 + 3) (insert msf.to_lba acc)
      else
        .error .InvalidMode
  else
    .ok acc
termination_by data.length - index
decreasing_by
  all_goals simp_wf
  all_goals omega

/-- load_sbi_file from src/sbi.rs, on the byte contents of the file:
magic check for "SBI\x00" followed by the record walk. -/
def load_sbi_file (data : List Nat) : Except SbiParseError (Finset Nat) :=
  if data.length < 4 || decide (data.take 4 ≠ [83, 66, 73, 0]) then
    .error .NotAnSbiFile
  else
    sbiWalk data 4 ∅

/-- Reachability of record offsets by the walk of load_sbi_file, stated
following the spec sentence about the record format: from a reached offset
holding a complete record with a valid BCD MSF the walk skips 10 payload
bytes when the mode byte is 1 and 3 payload bytes when the mode byte is at
most 3.  The walk of load_sbi_file starts at offset 4. -/
inductive SbiReachesFrom (data : List Nat) : Nat → Nat → Prop where
  | refl (i : Nat) : SbiReachesFrom data i i
  | step_mode1 (i j : Nat) (msf : MsfIndex) :
      i + 3 < data.length →
      MsfIndex.from_bcd_values (data.getD i 0) (data.getD (i + 1) 0)
        (data.getD (i + 2) 0) = .ok msf →
      data.getD (i + 3) 0 = 1 →
      SbiReachesFrom data (i + 14) j →
      SbiReachesFrom data i j
  | step_mode_le3 (i j : Nat) (msf : MsfIndex) :
      i + 3 < data.length →
      MsfIndex.from_bcd_values (data.getD i 0) (data.getD (i + 1) 0)
        (data.getD (i + 2) 0) = .ok msf →
      data.getD (i + 3) 0 ≠ 1 →
      data.getD (i + 3) 0 ≤ 3 →
      SbiReachesFrom data (i + 7) j →
      SbiReachesFrom data i j

/-- Predicate on a record offset: the record is complete, its MSF bytes are
valid BCD, and its mode byte is above 3 (outside modes 0 to 3). -/
def SbiBadModeAt (data : List Nat) (i : Nat) : Prop :=
  i + 3 < data.length ∧
  (∃ msf, MsfIndex.from_bcd_values (data.getD i 0) (data.getD (i + 1) 0)
      (data.getD (i + 2) 0) = .ok msf) ∧
  3 < data.getD (i + 3) 0

/-- Capacity of the CHD hunk cache (CACHE_CAPACITY in
src/chd/chd_thread.rs). -/
def CACHE_CAPACITY : Nat := 100

/-- Readahead window of the CHD worker (NUM_HUNKS_READAHEAD in
src/chd/chd_thread.rs). -/
def NUM_HUNKS_READAHEAD : Nat := 8

/-- The LRU hunk cache of the CHD worker: association list from hunk
number to decompressed hunk bytes, most recently used entry first
(LruCache of the lru crate, as used in src/chd/chd_thread.rs). -/
def HunkCache : Type := List (Nat × List Nat)

namespace HunkCache

/-- Key lookup (LruCache::contains). -/
def contains (c : HunkCache) (k : Nat) : Bool :=
  c.any fun e => e.1 == k

/-- Recency update of LruCache::get: if the key is present, its entry
moves to the most-recent position; the cache is otherwise unchanged. -/
def touch (c : HunkCache) (k : Nat) : HunkCache :=
  match c.find? (fun e => e.1 == k) with
  | some e => e :: c.eraseP (fun x => x.1 == k)
  | none => c

/-- LruCache::put: insert the pair at the most-recent position, replacing
any entry with the same key, and evict the least recently used entry when
the length exceeds the capacity. -/
def put (c : HunkCache) (k : Nat) (v : List Nat) : HunkCache :=
  let c1 := (k, v) :: c.eraseP (fun x => x.1 == k)
  if CACHE_CAPACITY < c1.length then c1.dropLast else c1

end HunkCache

/-- Cache effect of ChdThread::read_hunk_to_cache from
src/chd/chd_thread.rs: reject an out-of-range hunk without touching the
cache; otherwise touch last_requested_hunk (the pin) first, then check
whether the requested hunk is present, and only if it is absent
decompress it and insert it.  Decompression is modelled as the total
function hunkBytes; a codec error would perform no insertion at all. -/
def read_to_cache (pin num_hunks : Nat) (hunkBytes : Nat → List Nat)
    (h : Nat) (c : HunkCache) : HunkCache :=
  if num_hunks ≤ h then c
  else
    let c1 := HunkCache.touch c pin
    if HunkCache.contains c1 h then c1 else HunkCache.put c1 h (hunkBytes h)

/-- Track types (enum TrackType in src/lib.rs). -/
inductive TrackType where
  | Audio
  | Mode1
  | Mode2
deriving DecidableEq, Repr, Inhabited

/-- Modelled from the spec: the event type of the unified image interface
(spec section 6, Event with TrackChange and EndOfDisc).  The library root
revision defining it next to the Image trait is not under src; the
src/lib.rs present is an older revision whose Event lacks EndOfDisc. -/
inductive Event where
  | TrackChange
  | EndOfDisc
deriving DecidableEq, Repr

/-- Error type of the CHD backend (enum ChdImageError in src/chd.rs); the
payload-carrying codec, I/O and parse variants are collapsed to bare
constructors. -/
inductive ChdImageError where
  | ChdError
  | IoError
  | TrackParseError
  | WrongHunkSize
  | WrongBufferSize
  | UnsupportedSectorFormat
  | HunkRecvError
  | NoTracks
  | RecursionDepthExceeded
  | UnsupportedChdVersion
  | ParentNotFound
deriving DecidableEq, Repr

/-- Modelled from the spec: the unified image error type (spec section 7);
the ImageError enum lives in the library root revision absent from src.
It carries OutOfRange, MSF conversion errors, CHD backend errors and I/O
errors. -/
inductive ImageError where
  | OutOfRange
  | Msf (e : MsfParseError)
  | Chd (e : ChdImageError)
  | Io
deriving DecidableEq, Repr

/-- Pregap convention constant of src/chd.rs (FIRST_TRACK_PREGAP). -/
def FIRST_TRACK_PREGAP : Nat := 150

/-- Stored bytes per CD sector in a CHD (BYTES_PER_SECTOR in src/chd.rs,
2352 + 96). -/
def BYTES_PER_SECTOR : Nat := 2352 + 96

/-- Wrapping u32 subtraction, the release-mode semantics of the unguarded
u32 subtractions in the source. -/
def u32sub (a b : Nat) : Nat :=
  (a % 4294967296 + 4294967296 - b % 4294967296) % 4294967296

/-- Per-track CHD metadata as far as src/chd.rs reads it (struct
CdTrackInfo in src/chd/track_metadata.rs, fields frames and pregap). -/
structure CdTrackInfo where
  frames : Nat
  pregap : Option Nat
deriving DecidableEq, Repr, Inhabited

/-- A CHD track (struct Track in src/chd.rs). -/
structure ChdTrack where
  start_lba : Nat
  track_type : TrackType
  padding_offset : Nat
  track_info : CdTrackInfo
deriving DecidableEq, Repr, Inhabited

/-- Track vector construction loop of ChdImage::from_chd (src/chd.rs
lines 208 to 230), starting from a disc LBA and an accumulated padding:
each track starts where the previous one ended, records the cumulative
padding of its predecessors, and a track whose frame count is not a
multiple of 4 contributes padding up to the next multiple of 4. -/
def buildTracksFrom (current_lba total_padding : Nat) :
    List (TrackType × CdTrackInfo) → List ChdTrack
  | [] => []
  | (tt, info) :: rest =>
    let align_remainder := info.frames % 4
    let new_padding :=
      if 0 < align_remainder then total_padding + (4 - align_remainder)
      else total_padding
    { start_lba := current_lba, track_type := tt,
      padding_offset := total_padding, track_info := info } ::
      buildTracksFrom (current_lba + info.frames) new_padding rest

/-- Track vector of ChdImage::from_chd: the construction loop run from
disc LBA FIRST_TRACK_PREGAP with no padding accumulated yet. -/
def buildTracks (chd_tracks : List (TrackType × CdTrackInfo)) : List ChdTrack :=
  buildTracksFrom FIRST_TRACK_PREGAP 0 chd_tracks

/-- State of the CHD backend (struct ChdImage in src/chd.rs, in its
non-multithreaded build).  The external CHD codec is modelled by the
total function hunkData giving the decompressed bytes of each hunk. -/
structure ChdImage where
  tracks : List ChdTrack
  hunkData : Nat → List Nat
  hunk : List Nat
  current_hunk_no : Option Nat
  current_lba : Nat
  current_track : Nat
  num_hunks : Nat
  hunk_len : Nat
  sectors_per_hunk : Nat
  invalid_subq_lbas : Option (Finset Nat)

/-- Containment of a disc LBA in a CHD track: the half-open range test
(start_lba..start_lba+frames).contains(&lba) used by
ChdImage::update_current_track. -/
def inTrack (t : ChdTrack) (lba : Nat) : Prop :=
  t.start_lba ≤ lba ∧ lba < t.start_lba + t.track_info.frames

instance (t : ChdTrack) (lba : Nat) : Decidable (inTrack t lba) :=
  inferInstanceAs (Decidable (_ ∧ _))

namespace ChdImage

/-- ChdImage::from_chd (src/chd.rs lines 187 to 265) restricted to the
state construction: reject a hunk length that is not a multiple of 2448,
reject an empty track list, and otherwise start at LBA 150 on track 0
with hunk 0 pre-read into the working buffer.  The metadata string
parsing and the track type string matching happen before this point and
are not modelled; the input arrives as typed tracks. -/
def from_chd (chd_tracks : List (TrackType × CdTrackInfo))
    (num_hunks hunk_len : Nat) (hunkData : Nat → List Nat)
    (invalid_subq_lbas : Option (Finset Nat)) :
    Except ChdImageError ChdImage :=
  if hunk_len % BYTES_PER_SECTOR ≠ 0 then
    .error .WrongHunkSize
  else if chd_tracks.isEmpty then
    .error .NoTracks
  else
    .ok {
      tracks := buildTracks chd_tracks
      hunkData := hunkData
      hunk := hunkData 0
      current_hunk_no := some 0
      current_lba := 150
      current_track := 0
      num_hunks := num_hunks
      hunk_len := hunk_len
      sectors_per_hunk := hunk_len / BYTES_PER_SECTOR
      invalid_subq_lbas := invalid_subq_lbas }

/-- ChdImage::update_current_track (src/chd.rs lines 267 to 282),
returning the new current track index: keep the current track if it
contains the LBA, otherwise search the track list in order, failing with
OutOfRange when no track contains the LBA. -/
def update_current_track (s : ChdImage) (lba : Nat) : Except ImageError Nat :=
  if inTrack (s.tracks.getD s.current_track default) lba then
    .ok s.current_track
  else
    match s.tracks.findIdx? (fun x => decide (inTrack x lba)) with
    | some index => .ok index
    | none => .error .OutOfRange

/-- ChdImage::hunk_no_for_lba (src/chd.rs lines 310 to 325): translate a
disc LBA to a hunk number through the current track's padding offset.
Note the source accepts a hunk number equal to num_hunks (the range check
is a strict greater-than). -/
def hunk_no_for_lba (s : ChdImage) (lba : Nat) : Except ImageError Nat :=
  let current_track := s.tracks.getD s.current_track default
  if lba < FIRST_TRACK_PREGAP then
    .error .OutOfRange
  else
    let file_lba := lba + current_track.padding_offset - FIRST_TRACK_PREGAP
    let hunk_no := file_lba / s.sectors_per_hunk
    if s.num_hunks < hunk_no then .error .OutOfRange else .ok hunk_no

/-- ChdImage::read_hunk, non-multithreaded variant (src/chd.rs lines 284
to 287): decompress the requested hunk into the working buffer.  The
codec read is modelled by the total function hunkData. -/
def read_hunk (s : ChdImage) (hunk_no : Nat) : ChdImage :=
  { s with hunk := s.hunkData hunk_no }

/-- ChdImage::set_location_lba (src/chd.rs lines 327 to 353).  The Rust
method mutates self and returns a Result; the returned pair carries the
result together with the state, which on an error keeps the field updates
already performed (current_lba is set and current_hunk_no cleared up
front so an early error does not leave a stale hunk). -/
def set_location_lba (s : ChdImage) (lba : Nat) :
    Except ImageError Unit × ChdImage :=
  let old_hunk_no := s.current_hunk_no
  let s := { s with current_lba := lba, current_hunk_no := none }
  if lba < FIRST_TRACK_PREGAP then
    (.ok (), { s with current_track := 0 })
  else
    match update_current_track s lba with
    | .error e => (.error e, s)
    | .ok index =>
      let s := { s with current_track := index }
      match hunk_no_for_lba s lba with
      | .error e => (.error e, s)
      | .ok hunk_no =>
        let s :=
          if hunk_no ≠ old_hunk_no.getD 4294967295 then read_hunk s hunk_no
          else s
        (.ok (), { s with current_hunk_no := some hunk_no })

/-- Image::num_tracks for ChdImage (src/chd.rs lines 357 to 359). -/
def num_tracks (s : ChdImage) : Nat :=
  s.tracks.length

/-- Image::current_track for ChdImage (src/chd.rs lines 369 to 371):
the 1-based track number, with the usize-to-u8 cast written out. -/
def current_track_number (s : ChdImage) : Except ImageError Nat :=
  .ok ((s.current_track % 256 + 1) % 256)

/-- Image::current_index for ChdImage (src/chd.rs lines 373 to 382):
index 1 strictly past the pregap (defaulting to 0 when the metadata
carries none), index 0 otherwise.  The track-local LBA subtraction is
unguarded u32 arithmetic in the source. -/
def current_index (s : ChdImage) : Except ImageError Nat :=
  let current_track := s.tracks.getD s.current_track default
  let track_local_lba := u32sub s.current_lba current_track.start_lba
  if current_track.track_info.pregap.getD 0 < track_local_lba then
    .ok 1
  else
    .ok 0

/-- Image::current_track_local_msf for ChdImage (src/chd.rs lines 384 to
397): distance from the index-01 position (pregap defaulting to 150 when
absent), with the negative-MSF countdown convention (100,0,0) minus
offset before index 01. -/
def current_track_local_msf (s : ChdImage) : Except ImageError MsfIndex :=
  let current_track := s.tracks.getD s.current_track default
  let index01_lba :=
    current_track.start_lba + current_track.track_info.pregap.getD 150
  if s.current_lba < index01_lba then
    match MsfIndex.from_lba (u32sub (100 * 60 * 75) (index01_lba - s.current_lba)) with
    | .ok msf => .ok msf
    | .error e => .error (.Msf e)
  else
    match MsfIndex.from_lba (s.current_lba - index01_lba) with
    | .ok msf => .ok msf
    | .error e => .error (.Msf e)

/-- Image::current_global_msf for ChdImage (src/chd.rs lines 399 to 401). -/
def current_global_msf (s : ChdImage) : Except ImageError MsfIndex :=
  match MsfIndex.from_lba s.current_lba with
  | .ok msf => .ok msf
  | .error e => .error (.Msf e)

/-- Image::current_track_type for ChdImage (src/chd.rs lines 403 to 406). -/
def current_track_type (s : ChdImage) : Except ImageError TrackType :=
  .ok (s.tracks.getD s.current_track default).track_type

/-- Image::first_track_type for ChdImage (src/chd.rs lines 408 to 410). -/
def first_track_type (s : ChdImage) : TrackType :=
  (s.tracks.headD default).track_type

/-- Image::track_start for ChdImage (src/chd.rs lines 412 to 428):
track 0 is the PlayStation disc-length query; otherwise the index-01
position of the 1-based track, substituting a 150-sector pregap whenever
the metadata carries none. -/
def track_start (s : ChdImage) (track : Nat) : Except ImageError MsfIndex :=
  if track = 0 then
    match MsfIndex.from_lba
        (FIRST_TRACK_PREGAP + s.num_hunks * s.hunk_len / BYTES_PER_SECTOR) with
    | .ok msf => .ok msf
    | .error e => .error (.Msf e)
  else if track ≤ s.tracks.length then
    let t := s.tracks.getD (track - 1) default
    match MsfIndex.from_lba (t.start_lba + t.track_info.pregap.getD 150) with
    | .ok msf => .ok msf
    | .error e => .error (.Msf e)
  else
    .error .OutOfRange

/-- Image::set_location for ChdImage (src/chd.rs lines 430 to 432). -/
def set_location (s : ChdImage) (target : MsfIndex) :
    Except ImageError Unit × ChdImage :=
  set_location_lba s target.to_lba

/-- Image::advance_position for ChdImage (src/chd.rs lines 441 to 455):
seek one sector forward; an OutOfRange error becomes EndOfDisc, a track
index change becomes TrackChange. -/
def advance_position (s : ChdImage) :
    Except ImageError (Option Event) × ChdImage :=
  let old_track := s.current_track
  let r := set_location_lba s (s.current_lba + 1)
  match r.1 with
  | .ok _ =>
    if r.2.current_track ≠ old_track then (.ok (some .TrackChange), r.2)
    else (.ok none, r.2)
  | .error .OutOfRange => (.ok (some .EndOfDisc), r.2)
  | .error e => (.error e, r.2)

/-- Byte-pair swap of audio sectors (the chunks_exact_mut(2) swap loop in
ChdImage::copy_current_sector); a trailing odd byte is left in place. -/
def swapPairs : List Nat → List Nat
  | a :: b :: rest => b :: a :: swapPairs rest
  | rest => rest

/-- Image::copy_current_sector for ChdImage (src/chd.rs lines 465 to 514,
non-multithreaded build): reject a buffer whose length is not 2352,
zero-fill below LBA 150, otherwise copy 2352 bytes from the working hunk
buffer at the sector offset computed from the pre-retry track, retrying
the hunk read through set_location_lba when current_hunk_no is unset, and
byte-swap pairs when the (post-retry) current track is audio.  The
returned list is the filled buffer. -/
def copy_current_sector (s : ChdImage) (buf_len : Nat) :
    Except ImageError (List Nat) × ChdImage :=
  if buf_len ≠ 2352 then
    (.error (.Chd .WrongBufferSize), s)
  else if s.current_lba < FIRST_TRACK_PREGAP then
    (.ok (List.replicate 2352 0), s)
  else
    let current_track := s.tracks.getD s.current_track default
    let current_file_lba :=
      s.current_lba + current_track.padding_offset - FIRST_TRACK_PREGAP
    let sector_start := current_file_lba % s.sectors_per_hunk * BYTES_PER_SECTOR
    let retried :=
      if s.current_hunk_no.isNone then set_location_lba s s.current_lba
      else (.ok (), s)
    match retried.1 with
    | .error e => (.error e, retried.2)
    | .ok _ =>
      let s1 := retried.2
      match hunk_no_for_lba s1 s1.current_lba with
      | .error e => (.error e, s1)
      | .ok _ =>
        let sector := (s1.hunk.drop sector_start).take 2352
        let buf :=
          if (s1.tracks.getD s1.current_track default).track_type = .Audio then
            swapPairs sector
          else sector
        (.ok buf, s1)

end ChdImage

/-- Contiguity of a CHD track list: the first track starts at the given
LBA, and each further track starts where its predecessor ends. -/
def tracksChainFromB (start : Nat) : List ChdTrack → Bool
  | [] => true
  | t :: rest =>
    (t.start_lba == start) &&
      tracksChainFromB (start + t.track_info.frames) rest

/-- Total frame count of a CHD track list. -/
def totalFrames (l : List ChdTrack) : Nat :=
  (l.map (fun t => t.track_info.frames)).sum

/-- Hunk coverage of a CHD track list: the last sector of every nonempty
track maps to a hunk number within num_hunks under that track's padding
offset. -/
def hunksCoverB (sph num_hunks : Nat) : List ChdTrack → Bool
  | [] => true
  | t :: rest =>
    (t.track_info.frames == 0 ||
      decide ((t.start_lba + t.track_info.frames - 1 + t.padding_offset -
        FIRST_TRACK_PREGAP) / sph ≤ num_hunks)) &&
    hunksCoverB sph num_hunks rest

/-- Static disc well-formedness of a CHD image state: a nonempty track
list laid out contiguously from LBA 150 (as buildTracks produces it), a
positive sector-per-hunk count, and enough hunks to cover every track. -/
def ChdDiscWF (s : ChdImage) : Prop :=
  s.tracks ≠ [] ∧
  tracksChainFromB FIRST_TRACK_PREGAP s.tracks = true ∧
  0 < s.sectors_per_hunk ∧
  hunksCoverB s.sectors_per_hunk s.num_hunks s.tracks = true

instance (s : ChdImage) : Decidable (ChdDiscWF s) :=
  inferInstanceAs (Decidable (_ ∧ _ ∧ _ ∧ _))

/-- Position invariant of the CHD backend (the claim C3 property): the
current track index is in range and selects the track containing the
current LBA, except below LBA 150 where track 0 is selected. -/
def ChdPosInv (s : ChdImage) : Prop :=
  s.current_track < s.tracks.length ∧
  (s.current_lba < 150 → s.current_track = 0) ∧
  (150 ≤ s.current_lba →
    inTrack (s.tracks.getD s.current_track default) s.current_lba)

instance (s : ChdImage) : Decidable (ChdPosInv s) :=
  inferInstanceAs (Decidable (_ ∧ _ ∧ _))

/-- One-past-the-last disc LBA of a CHD image. -/
def disc_end (s : ChdImage) : Nat :=
  FIRST_TRACK_PREGAP + totalFrames s.tracks

/-- A finalized CUE track (struct Track in src/cue.rs): type, bin-local
starting LBA, sector count, and the entries of the index map the backend
reads (index 0 optional; index 1 present in every finalized track, and
unwrapped by current_index and current_track_local_msf).  Index LBAs are
bin-local. -/
structure CueTrack where
  track_type : TrackType
  starting_lba : Nat
  num_sectors : Nat
  index0 : Option Nat
  index1 : Nat
deriving DecidableEq, Repr, Inhabited

/-- A bin file of the CUE backend (struct BinFile in src/cue.rs); the
file handle is modelled by the byte contents, and bin_mode is omitted
because every mode is read as Binary. -/
structure BinFile where
  data : List Nat
  tracks : List CueTrack
deriving DecidableEq, Repr, Inhabited

/-- BinFile::num_sectors from src/cue.rs: file length divided by 2352. -/
def BinFile.num_sectors (b : BinFile) : Nat :=
  b.data.length / 2352

/-- Position of the CUE backend (struct Location in src/cue.rs). -/
structure Location where
  bin_file_no : Nat
  track_in_bin : Nat
  global_lba : Nat
  bin_local_lba : Nat
deriving DecidableEq, Repr, Inhabited

/-- State of the CUE backend (struct Cuesheet in src/cue.rs). -/
structure Cuesheet where
  bin_files : List BinFile
  location : Location
  invalid_subq_lbas : Option (Finset Nat)
deriving DecidableEq

/-- Track scan of Cuesheet::set_location inside the chosen bin file
(src/cue.rs lines 469 to 482): find the first track whose sector count
exceeds the remaining count, subtracting the sector counts of the
skipped tracks; when the loop runs out of tracks the reduced remainder
is handed back to the bin loop. -/
def scanTracks : List CueTrack → Nat → Option Nat × Nat
  | [], left => (none, left)
  | t :: rest, left =>
    if left < t.num_sectors then
      (some 0, left)
    else
      let r := scanTracks rest (left - t.num_sectors)
      (r.1.map (· + 1), r.2)

/-- Bin-file scan of Cuesheet::set_location (src/cue.rs lines 465 to
486): find the first bin file whose sector count exceeds the remaining
count, and the track within it; the returned triple is the bin index,
track index and bin-local offset (the remainder at bin entry). -/
def scanBins : List BinFile → Nat → Option (Nat × Nat × Nat)
  | [], _ => none
  | b :: rest, left =>
    if left < b.num_sectors then
      match scanTracks b.tracks left with
      | (some tn, _) => some (0, tn, left)
      | (none, left2) =>
        (scanBins rest left2).map (fun r => (r.1 + 1, r.2.1, r.2.2))
    else
      (scanBins rest (left - b.num_sectors)).map (fun r => (r.1 + 1, r.2.1, r.2.2))

namespace Cuesheet

/-- Image::set_location for Cuesheet (src/cue.rs lines 449 to 488), on
the target LBA (the source converts its MsfIndex argument to an LBA on
entry): below 150, park at bin 0, track 0, bin-local 0; otherwise scan
the bin files for the position of target minus 150, or fail OutOfRange. -/
def set_location (s : Cuesheet) (target_lba : Nat) :
    Except ImageError Cuesheet :=
  if target_lba < 150 then
    .ok { s with location := ⟨0, 0, target_lba, 0⟩ }
  else
    match scanBins s.bin_files (target_lba - 150) with
    | some (bn, tn, off) => .ok { s with location := ⟨bn, tn, target_lba, off⟩ }
    | none => .error .OutOfRange

/-- Image::advance_position for Cuesheet (src/cue.rs lines 496 to 525):
in the virtual pregap only the global LBA advances; otherwise both the
global and bin-local LBA advance, moving to the next track or bin file
(TrackChange) or reporting EndOfDisc when neither exists. -/
def advance_position (s : Cuesheet) : Option Event × Cuesheet :=
  if s.location.global_lba < 150 then
    (none, { s with location :=
      { s.location with global_lba := s.location.global_lba + 1 } })
  else
    let bin_file := s.bin_files.getD s.location.bin_file_no default
    let track := bin_file.tracks.getD s.location.track_in_bin default
    let track_end := track.starting_lba + track.num_sectors
    let loc := { s.location with
      global_lba := s.location.global_lba + 1,
      bin_local_lba := s.location.bin_local_lba + 1 }
    if loc.bin_local_lba < track_end then
      (none, { s with location := loc })
    else if s.location.track_in_bin + 1 < bin_file.tracks.length then
      (some .TrackChange,
        { s with location := { loc with track_in_bin := loc.track_in_bin + 1 } })
    else if s.location.bin_file_no + 1 < s.bin_files.length then
      (some .TrackChange,
        { s with location :=
          { loc with
            bin_file_no := loc.bin_file_no + 1
            track_in_bin := 0
            bin_local_lba := 0 } })
    else
      (some .EndOfDisc, { s with location := loc })

/-- Image::current_track for Cuesheet (src/cue.rs lines 358 to 365): the
1-based track number, accumulating the track counts of the preceding bin
files. -/
def current_track_number (s : Cuesheet) : Except ImageError Nat :=
  .ok (((s.bin_files.take s.location.bin_file_no).map
    (fun b => b.tracks.length)).sum + s.location.track_in_bin + 1)

/-- Image::current_index for Cuesheet (src/cue.rs lines 368 to 377):
index 1 once the bin-local LBA has reached the track's index-1 LBA. -/
def current_index (s : Cuesheet) : Except ImageError Nat :=
  let index_one := ((s.bin_files.getD s.location.bin_file_no default).tracks.getD
    s.location.track_in_bin default).index1
  if index_one ≤ s.location.bin_local_lba then .ok 1 else .ok 0

/-- Image::current_track_local_msf for Cuesheet (src/cue.rs lines 379 to
398), with the negative-MSF countdown before index 1; the two outer
subtractions are unguarded u32 arithmetic in the source. -/
def current_track_local_msf (s : Cuesheet) : Except ImageError MsfIndex :=
  let track := (s.bin_files.getD s.location.bin_file_no default).tracks.getD
    s.location.track_in_bin default
  let index_one := u32sub track.index1 track.starting_lba
  let track_local := u32sub s.location.bin_local_lba track.starting_lba
  if track_local < index_one then
    match MsfIndex.from_lba (u32sub (100 * 60 * 75) (index_one - track_local)) with
    | .ok msf => .ok msf
    | .error e => .error (.Msf e)
  else
    match MsfIndex.from_lba (track_local - index_one) with
    | .ok msf => .ok msf
    | .error e => .error (.Msf e)

/-- Image::current_global_msf for Cuesheet (src/cue.rs lines 400 to 404). -/
def current_global_msf (s : Cuesheet) : Except ImageError MsfIndex :=
  match MsfIndex.from_lba s.location.global_lba with
  | .ok msf => .ok msf
  | .error e => .error (.Msf e)

/-- Image::current_track_type for Cuesheet (src/cue.rs lines 406 to 410). -/
def current_track_type (s : Cuesheet) : Except ImageError TrackType :=
  .ok ((s.bin_files.getD s.location.bin_file_no default).tracks.getD
    s.location.track_in_bin default).track_type

/-- Image::copy_current_sector for Cuesheet (src/cue.rs lines 527 to
540): zero-fill below LBA 150; otherwise seek the current bin file to
bin_local_lba times 2352 and read exactly the buffer's length in bytes
(read_exact fails with an I/O error when the file is too short).  The
returned list is the filled buffer; the location is unchanged. -/
def copy_current_sector (s : Cuesheet) (buf_len : Nat) :
    Except ImageError (List Nat) × Cuesheet :=
  if s.location.global_lba < 150 then
    (.ok (List.replicate buf_len 0), s)
  else
    let data := (s.bin_files.getD s.location.bin_file_no default).data
    let off := s.location.bin_local_lba * 2352
    if off + buf_len ≤ data.length then
      (.ok ((data.drop off).take buf_len), s)
    else
      (.error .Io, s)

end Cuesheet

/-- Chain property of finalized CUE tracks within one bin file (the
effect of BinFile::finalize_tracks in src/cue.rs): the first track
starts at the given bin-local LBA and each further track starts where
its predecessor ends. -/
def cueTracksChainB (start : Nat) : List CueTrack → Bool
  | [] => true
  | t :: rest =>
    (t.starting_lba == start) && cueTracksChainB (start + t.num_sectors) rest

/-- Total sector count of a CUE track list. -/
def cueTrackSum (l : List CueTrack) : Nat :=
  (l.map (fun t => t.num_sectors)).sum

/-- Well-formedness of one finalized bin file: a nonempty track list
chained from bin-local LBA 0, whose sector counts are positive and sum
to the file's sector count (the shape BinFile::finalize_tracks produces
for a bin file whose first track starts at offset 0). -/
def binWFB (b : BinFile) : Bool :=
  (!b.tracks.isEmpty) && cueTracksChainB 0 b.tracks &&
  (cueTrackSum b.tracks == b.num_sectors) &&
  b.tracks.all (fun t => decide (0 < t.num_sectors))

/-- Static disc well-formedness of a CUE image state. -/
def CueWF (s : Cuesheet) : Prop :=
  s.bin_files ≠ [] ∧ ∀ b ∈ s.bin_files, binWFB b = true

instance (s : Cuesheet) : Decidable (CueWF s) :=
  inferInstanceAs (Decidable (_ ∧ _))

/-- Disc sector count of the bin files preceding the current one. -/
def binSectorsBefore (s : Cuesheet) : Nat :=
  ((s.bin_files.take s.location.bin_file_no).map BinFile.num_sectors).sum

/-- One-past-the-last disc LBA of a CUE image. -/
def cue_disc_end (s : Cuesheet) : Nat :=
  150 + (s.bin_files.map BinFile.num_sectors).sum

/-- Position invariant of the CUE backend (the claim C3 property): the
location indices are in range; in the virtual pregap the location parks
at bin 0, track 0, bin-local 0; otherwise the global LBA decomposes into
150 plus the sectors of the preceding bin files plus the bin-local LBA,
and the bin-local LBA lies inside the selected track. -/
def CuePosInv (s : Cuesheet) : Prop :=
  s.location.bin_file_no < s.bin_files.length ∧
  s.location.track_in_bin <
    (s.bin_files.getD s.location.bin_file_no default).tracks.length ∧
  (s.location.global_lba < 150 →
    s.location.bin_file_no = 0 ∧ s.location.track_in_bin = 0 ∧
    s.location.bin_local_lba = 0) ∧
  (150 ≤ s.location.global_lba →
    s.location.global_lba = 150 + binSectorsBefore s + s.location.bin_local_lba ∧
    ((s.bin_files.getD s.location.bin_file_no default).tracks.getD
        s.location.track_in_bin default).starting_lba ≤ s.location.bin_local_lba ∧
    s.location.bin_local_lba <
      ((s.bin_files.getD s.location.bin_file_no default).tracks.getD
        s.location.track_in_bin default).starting_lba +
      ((s.bin_files.getD s.location.bin_file_no default).tracks.getD
        s.location.track_in_bin default).num_sectors)

instance (s : Cuesheet) : Decidable (CuePosInv s) :=
  inferInstanceAs (Decidable (_ ∧ _ ∧ _ ∧ _))

/-- Concrete CHD image used for counterexamples and witnesses: a Mode1
track of 4 frames with no pregap metadata followed by an Audio track of
8 frames with a 2-sector pregap, one sector per hunk. -/
def chdEx : ChdImage :=
  { tracks := buildTracks [(.Mode1, ⟨4, none⟩), (.Audio, ⟨8, some 2⟩)]
    hunkData := fun h => (List.range 2448).map (fun i => (h + i) % 256)
    hunk := (List.range 2448).map (fun i => (0 + i) % 256)
    current_hunk_no := some 0
    current_lba := 150
    current_track := 0
    num_hunks := 20
    hunk_len := 2448
    sectors_per_hunk := 1
    invalid_subq_lbas := none }

/-- First bin file of the concrete CUE example: two sectors holding the
bytes i mod 256, carrying a Mode1 track and an Audio track whose index 1
coincides with its start. -/
def cueBin0 : BinFile :=
  { data := (List.range (2352 * 2)).map (fun i => i % 256)
    tracks := [⟨.Mode1, 0, 1, none, 0⟩, ⟨.Audio, 1, 1, some 1, 1⟩] }

/-- Second bin file of the concrete CUE example: one sector of byte 7
holding a single Audio track. -/
def cueBin1 : BinFile :=
  { data := List.replicate 2352 7
    tracks := [⟨.Audio, 0, 1, none, 0⟩] }

/-- Concrete two-bin CUE image used for witnesses: a Mode1 and an Audio
track in the first bin file and a single Audio track in the second. -/
def cueEx : Cuesheet :=
  { bin_files := [cueBin0, cueBin1]
    location := ⟨0, 0, 150, 0⟩
    invalid_subq_lbas := none }

/-- Concrete CHD image with two Mode1 tracks of 100 frames each and no
pregap metadata on either track, four sectors per hunk. -/
def chdEx2 : ChdImage :=
  { tracks := buildTracks [(.Mode1, ⟨100, none⟩), (.Mode1, ⟨100, none⟩)]
    hunkData := fun _ => List.replicate 9792 0
    hunk := List.replicate 9792 0
    current_hunk_no := some 0
    current_lba := 150
    current_track := 0
    num_hunks := 60
    hunk_len := 9792
    sectors_per_hunk := 4
    invalid_subq_lbas := none }

/-- State modification substituting a pregap value into one track's
metadata, used to express which value the backend substitutes when the
metadata carries none. -/
def setTrackPregap (s : ChdImage) (i : Nat) (p : Option Nat) : ChdImage :=
  let t := s.tracks.getD i default
  { s with tracks :=
      s.tracks.set i { t with track_info := { t.track_info with pregap := p } } }

/-- chdEx positioned at LBA 155 (inside its audio track) with hunk 5
loaded, the state set_location_lba 155 establishes on chdEx. -/
def chdExCopy : ChdImage :=
  { chdEx with
      current_lba := 155
      current_track := 1
      current_hunk_no := some 5
      hunk := chdEx.hunkData 5 }

lemma sbiWalk_invalidMode_reaches (data : List Nat) :
    ∀ n index acc, data.length - index ≤ n →
      sbiWalk data index acc = .error .InvalidMode →
      ∃ j, SbiReachesFrom data index j ∧ SbiBadModeAt data j := by
  intro n
  induction n with
  | zero =>
    intro index acc hle h
    rw [sbiWalk, dif_neg (by omega)] at h
    exact absurd h (by simp)
  | succ n ih =>
    intro index acc hle h
    rw [sbiWalk] at h
    by_cases hlt : index + 3 < data.length
    · rw [dif_pos hlt] at h
      cases hbcd : MsfIndex.from_bcd_values (data.getD index 0)
          (data.getD (index + 1) 0) (data.getD (index + 2) 0) with
      | error e => rw [hbcd] at h; simp at h
      | ok msf =>
        rw [hbcd] at h
        simp only [] at h
        by_cases h1 : data.getD (index + 3) 0 = 1
        · rw [if_pos (by rw [h1]; rfl)] at h
          obtain ⟨j, hr, hb⟩ := ih (index + 4 + 10) _ (by omega) h
          exact ⟨j, .step_mode1 index j msf hlt hbcd h1 hr, hb⟩
        · rw [if_neg (by simp only [beq_iff_eq]; exact h1)] at h
          by_cases h3 : data.getD (index + 3) 0 ≤ 3
          · rw [if_pos h3] at h
            obtain ⟨j, hr, hb⟩ := ih (index + 4 + 3) _ (by omega) h
            exact ⟨j, .step_mode_le3 index j msf hlt hbcd h1 h3 hr, hb⟩
          · exact ⟨index, .refl index, hlt, ⟨msf, hbcd⟩, by omega⟩
    · rw [dif_neg hlt] at h
      exact absurd h (by simp)

lemma sbiWalk_reaches_invalidMode (data : List Nat) (index j : Nat)
    (hr : SbiReachesFrom data index j) (hb : SbiBadModeAt data j) :
    ∀ acc, sbiWalk data index acc = .error .InvalidMode := by
  induction hr with
  | refl i =>
    obtain ⟨hlt, ⟨msf, hbcd⟩, hmode⟩ := hb
    intro acc
    rw [sbiWalk, dif_pos hlt, hbcd]
    simp only []
    rw [if_neg (by simp only [beq_iff_eq]; omega), if_neg (by omega)]
  | step_mode1 i j msf hlt hbcd hmode hrest ih =>
    intro acc
    rw [sbiWalk, dif_pos hlt, hbcd]
    simp only []
    rw [if_pos (by rw [hmode]; rfl)]
    exact ih hb (insert msf.to_lba acc)
  | step_mode_le3 i j msf hlt hbcd hmode1 hmode3 hrest ih =>
    intro acc
    rw [sbiWalk, dif_pos hlt, hbcd]
    simp only []
    rw [if_neg (by simp only [beq_iff_eq]; exact hmode1), if_pos hmode3]
    exact ih hb (insert msf.to_lba acc)

/-- C2 (counterexample): on the input consisting of the SBI magic followed
by one record with MSF bytes (0, 2, 0), mode byte 0 and three payload
bytes, load_sbi_file succeeds with the LBA set containing 150 instead of
failing with InvalidMode as the claim demands for a mode outside 1 to 3. -/
theorem sbi_mode_zero_counterexample :
    load_sbi_file [83, 66, 73, 0, 0, 2, 0, 0, 9, 9, 9] = .ok {150} ∧
    load_sbi_file [83, 66, 73, 0, 0, 2, 0, 0, 9, 9, 9] ≠
      .error .InvalidMode := by
  have hstop : sbiWalk [83, 66, 73, 0, 0, 2, 0, 0, 9, 9, 9] 11
      (insert (150 : Nat) ∅) = .ok (insert 150 ∅) := by
    rw [sbiWalk, dif_neg (by simp)]
  have hstep : sbiWalk [83, 66, 73, 0, 0, 2, 0, 0, 9, 9, 9] 4 ∅ =
      sbiWalk [83, 66, 73, 0, 0, 2, 0, 0, 9, 9, 9] 11 (insert 150 ∅) := by
    rw [sbiWalk]
    rfl
  have h : load_sbi_file [83, 66, 73, 0, 0, 2, 0, 0, 9, 9, 9] = .ok {150} := by
    rw [load_sbi_file, if_neg (by simp), hstep, hstop]
    simp
  exact ⟨h, by rw [h]; simp⟩

/-- C2 (amended): for every input passing the SBI magic check,
load_sbi_file walks records of the form M, S, F, mode, payload, skipping
10 payload bytes when the mode byte is 1 and 3 payload bytes when the mode
byte is at most 3 (modes 0, 2 and 3 alike), and it returns InvalidMode if
and only if the walk reaches a complete record whose MSF bytes are valid
BCD and whose mode byte exceeds 3.  In particular a record with mode 0
does not cause InvalidMode. -/
theorem sbi_invalidMode_characterization (data : List Nat)
    (h4 : 4 ≤ data.length) (hm : data.take 4 = [83, 66, 73, 0]) :
    load_sbi_file data = .error .InvalidMode ↔
      ∃ j, SbiReachesFrom data 4 j ∧ SbiBadModeAt data j := by
  rw [load_sbi_file, if_neg (by simp [hm]; omega)]
  constructor
  · exact fun h => sbiWalk_invalidMode_reaches data data.length 4 ∅ (by omega) h
  · rintro ⟨j, hr, hb⟩
    exact sbiWalk_reaches_invalidMode data 4 j hr hb ∅

/-- C2 (witness for the amended theorem): the magic followed by a single
record with valid BCD MSF (0, 2, 0) and mode byte 4 makes load_sbi_file
fail with InvalidMode. -/
theorem sbi_invalidMode_characterization_witness :
    load_sbi_file [83, 66, 73, 0, 0, 2, 0, 4] = .error .InvalidMode := by
  refine (sbi_invalidMode_characterization [83, 66, 73, 0, 0, 2, 0, 4]
    (by decide) (by decide)).2 ?_
  exact ⟨4, .refl 4, by decide, ⟨⟨0, 2, 0⟩, by rfl⟩, by decide⟩

/-- C6: the LBA round-trip of the MSF module in src/index.rs holds for
every valid MSF value, and the LBA is below 450000; but the second MSF
module in src/msf_index.rs breaks the round-trip because from_sectors
divides the remainder by 60 instead of 75: 75 sectors (MSF (0,1,0)) come
back as MSF (0,1,15), and MSF (0,59,74) does not come back at all.  The
code of from_sectors contradicts its own inverse to_sectors and the
bijective-conversion intent, so this is a code bug. -/
theorem msf_roundtrip_and_from_sectors_bug :
    (∀ m s f : Nat, m ≤ 99 → s ≤ 59 → f ≤ 74 →
      MsfIndex.from_sector_number (MsfIndex.to_sector_number ⟨m, s, f⟩) =
        .ok ⟨m, s, f⟩ ∧
      MsfIndex.to_sector_number ⟨m, s, f⟩ < 450000) ∧
    msf_index.from_sectors (msf_index.to_sectors ⟨0, 1, 0⟩) = .ok ⟨0, 1, 15⟩ ∧
    msf_index.from_sectors (msf_index.to_sectors ⟨0, 59, 74⟩) =
      .error .OutOfRangeError := by
  refine ⟨?_, by decide, by decide⟩
  intro m s f hm hs hf
  constructor
  · simp only [MsfIndex.from_sector_number, MsfIndex.to_sector_number,
      MsfIndex.new]
    rw [if_neg (by simp only [Bool.or_eq_true, decide_eq_true_eq, not_or]
      <;> omega)]
    simp only [Except.ok.injEq, MsfIndex.mk.injEq]
    refine ⟨?_, ?_, ?_⟩ <;> omega
  · simp only [MsfIndex.to_sector_number]
    omega

/-- C6 (witness): the round-trip instantiated at MSF (13, 37, 42). -/
theorem msf_roundtrip_witness :
    MsfIndex.from_sector_number (MsfIndex.to_sector_number ⟨13, 37, 42⟩) =
      .ok ⟨13, 37, 42⟩ ∧
    MsfIndex.to_sector_number ⟨13, 37, 42⟩ < 450000 :=
  msf_roundtrip_and_from_sectors_bug.1 13 37 42 (by omega) (by omega) (by omega)

lemma touch_of_contains (c : HunkCache) (pin : Nat)
    (hpin : HunkCache.contains c pin = true) :
    ∃ v c', HunkCache.touch c pin = (pin, v) :: c' := by
  unfold HunkCache.contains at hpin
  rw [List.any_eq_true] at hpin
  obtain ⟨e, he, hk⟩ := hpin
  have hfind : ∃ e', c.find? (fun x => x.1 == pin) = some e' := by
    rcases hf : c.find? (fun x => x.1 == pin) with _ | e'
    · exact absurd (List.find?_eq_none.mp hf e he) (by simp_all)
    · exact ⟨e', hf⟩
  obtain ⟨e', hf⟩ := hfind
  have hk' : e'.1 = pin := by
    have := List.find?_some hf
    simpa using this
  refine ⟨e'.2, c.eraseP (fun x => x.1 == pin), ?_⟩
  unfold HunkCache.touch
  rw [hf]
  rw [← hk']

lemma read_to_cache_preserves_pin (pin num_hunks : Nat)
    (hunkBytes : Nat → List Nat) (h : Nat) (c : HunkCache)
    (hpin : HunkCache.contains c pin = true) :
    HunkCache.contains (read_to_cache pin num_hunks hunkBytes h c) pin
      = true := by
  unfold read_to_cache
  by_cases hrange : num_hunks ≤ h
  · rwa [if_pos hrange]
  · rw [if_neg hrange]
    obtain ⟨v, c', htouch⟩ := touch_of_contains c pin hpin
    simp only [htouch]
    by_cases hcont : HunkCache.contains ((pin, v) :: c') h
    · rw [if_pos hcont]
      simp [HunkCache.contains]
    · rw [if_neg hcont]
      have hne : h ≠ pin := by
        intro he
        apply hcont
        simp [HunkCache.contains, he]
      unfold HunkCache.put
      have herase : ((pin, v) :: c').eraseP (fun x => x.1 == h) =
          (pin, v) :: c'.eraseP (fun x => x.1 == h) := by
        rw [List.eraseP_cons_of_neg]
        simp [Ne.symm hne]
      simp only [herase]
      set t := c'.eraseP (fun x => x.1 == h) with ht
      by_cases hlen : CACHE_CAPACITY < ((h, hunkBytes h) :: (pin, v) :: t).length
      · rw [if_pos hlen]
        have htne : t ≠ [] := by
          intro hnil
          rw [hnil] at hlen
          simp [CACHE_CAPACITY] at hlen
        have hdrop : ((h, hunkBytes h) :: (pin, v) :: t).dropLast =
            (h, hunkBytes h) :: (pin, v) :: t.dropLast := by
          rcases t with _ | ⟨x, xs⟩
          · exact absurd rfl htne
          · simp [List.dropLast]
        rw [hdrop]
        simp [HunkCache.contains]
      · rw [if_neg hlen]
        simp [HunkCache.contains]

/-- C9: in the CHD hunk cache, last_requested_hunk (the pin) is touched in
the LRU before every insertion performed by read_hunk_to_cache, hence if
it is present in the cache it is never evicted by any burst of readahead
or prefetch calls of read_hunk_to_cache of length at most
CACHE_CAPACITY - 1. -/
theorem chd_cache_pin_survives_burst (burst : List Nat)
    (pin num_hunks : Nat) (hunkBytes : Nat → List Nat) (c : HunkCache)
    (hpin : HunkCache.contains c pin = true)
    (hlen : burst.length ≤ CACHE_CAPACITY - 1) :
    HunkCache.contains
      (burst.foldl (fun acc h => read_to_cache pin num_hunks hunkBytes h acc) c)
      pin = true := by
  clear hlen
  induction burst generalizing c with
  | nil => exact hpin
  | cons h rest ih =>
    exact ih _ (read_to_cache_preserves_pin pin num_hunks hunkBytes h c hpin)

/-- C9 (witness): a pinned hunk 5 survives a burst of three prefetch
insertions into a cache holding only hunk 5. -/
theorem chd_cache_pin_survives_burst_witness :
    HunkCache.contains
      ([0, 1, 2].foldl
        (fun acc h => read_to_cache 5 10 (fun _ => []) h acc)
        [(5, [])])
      5 = true :=
  chd_cache_pin_survives_burst [0, 1, 2] 5 10 (fun _ => []) [(5, [])]
    (by decide) (by decide)

lemma inTrack_default_false (lba : Nat) : ¬ inTrack default lba := by
  intro hin
  rcases hin with ⟨h1, h2⟩
  have hz : (default : ChdTrack).start_lba +
      (default : ChdTrack).track_info.frames = 0 := rfl
  omega

lemma tracksChain_mem_iff (start lba : Nat) (l : List ChdTrack)
    (hchain : tracksChainFromB start l = true) :
    (∃ t ∈ l, inTrack t lba) ↔ start ≤ lba ∧ lba < start + totalFrames l := by
  induction l generalizing start with
  | nil =>
    simp [totalFrames]
  | cons t rest ih =>
    rw [tracksChainFromB, Bool.and_eq_true, beq_iff_eq] at hchain
    obtain ⟨hstart, hrest⟩ := hchain
    have ihr := ih (start + t.track_info.frames) hrest
    constructor
    · rintro ⟨u, hu, hin⟩
      rcases List.mem_cons.mp hu with rfl | hmem
      · rcases hin with ⟨h1, h2⟩
        simp only [totalFrames, List.map_cons, List.sum_cons]
        omega
      · have := ihr.mp ⟨u, hmem, hin⟩
        simp only [totalFrames, List.map_cons, List.sum_cons] at *
        omega
    · rintro ⟨h1, h2⟩
      by_cases hfirst : lba < start + t.track_info.frames
      · refine ⟨t, List.mem_cons_self t rest, ?_⟩
        exact show t.start_lba ≤ lba ∧
          lba < t.start_lba + t.track_info.frames by omega
      · have : ∃ u ∈ rest, inTrack u lba := by
          apply ihr.mpr
          simp only [totalFrames, List.map_cons, List.sum_cons] at h2 ⊢
          omega
        obtain ⟨u, hu, hin⟩ := this
        exact ⟨u, List.mem_cons_of_mem t hu, hin⟩

lemma tracksChain_mem_end_le (start : Nat) (l : List ChdTrack)
    (hchain : tracksChainFromB start l = true) (t : ChdTrack) (ht : t ∈ l) :
    t.start_lba + t.track_info.frames ≤ start + totalFrames l := by
  induction l generalizing start with
  | nil => cases ht
  | cons u rest ih =>
    rw [tracksChainFromB, Bool.and_eq_true, beq_iff_eq] at hchain
    obtain ⟨hstart, hrest⟩ := hchain
    rcases List.mem_cons.mp ht with rfl | hmem
    · simp only [totalFrames, List.map_cons, List.sum_cons]
      omega
    · have := ih (start + u.track_info.frames) hrest hmem
      simp only [totalFrames, List.map_cons, List.sum_cons] at *
      omega

lemma hunksCover_mem (sph num_hunks : Nat) (l : List ChdTrack)
    (hc : hunksCoverB sph num_hunks l = true) (t : ChdTrack) (ht : t ∈ l)
    (hf : 0 < t.track_info.frames) :
    (t.start_lba + t.track_info.frames - 1 + t.padding_offset -
      FIRST_TRACK_PREGAP) / sph ≤ num_hunks := by
  induction l with
  | nil => cases ht
  | cons u rest ih =>
    rw [hunksCoverB, Bool.and_eq_true] at hc
    obtain ⟨hu, hrest⟩ := hc
    rcases List.mem_cons.mp ht with rfl | hmem
    · rw [Bool.or_eq_true, beq_iff_eq, decide_eq_true_eq] at hu
      rcases hu with h0 | hb
      · omega
      · exact hb
    · exact ih hrest hmem

lemma update_current_track_ok (s : ChdImage) (lba idx : Nat)
    (h : ChdImage.update_current_track s lba = .ok idx) :
    idx < s.tracks.length ∧ inTrack (s.tracks.getD idx default) lba := by
  unfold ChdImage.update_current_track at h
  by_cases hfast : inTrack (s.tracks.getD s.current_track default) lba
  · rw [if_pos hfast] at h
    injection h with h
    subst h
    refine ⟨?_, hfast⟩
    by_contra hge
    rw [List.getD_eq_default _ _ (Nat.le_of_not_lt hge)] at hfast
    exact inTrack_default_false lba hfast
  · rw [if_neg hfast] at h
    rcases hf : s.tracks.findIdx? (fun x => decide (inTrack x lba)) with _ | index
    · rw [hf] at h
      exact absurd h (by simp)
    · rw [hf] at h
      injection h with h
      subst h
      obtain ⟨hlt, hp, -⟩ := List.findIdx?_eq_some_iff_getElem.mp hf
      refine ⟨hlt, ?_⟩
      rw [List.getD_eq_getElem _ _ hlt]
      exact of_decide_eq_true hp

lemma update_current_track_err (s : ChdImage) (lba : Nat) (e : ImageError)
    (h : ChdImage.update_current_track s lba = .error e) :
    e = .OutOfRange ∧ ∀ t ∈ s.tracks, ¬ inTrack t lba := by
  unfold ChdImage.update_current_track at h
  by_cases hfast : inTrack (s.tracks.getD s.current_track default) lba
  · rw [if_pos hfast] at h
    exact absurd h (by simp)
  · rw [if_neg hfast] at h
    rcases hf : s.tracks.findIdx? (fun x => decide (inTrack x lba)) with _ | index
    · rw [hf] at h
      injection h with h
      refine ⟨h.symm, fun t ht hin => ?_⟩
      have := List.findIdx?_eq_none_iff.mp hf t ht
      rw [decide_eq_false_iff_not] at this
      exact this hin
    · rw [hf] at h
      exact absurd h (by simp)

lemma update_current_track_found (s : ChdImage) (lba : Nat)
    (hex : ∃ t ∈ s.tracks, inTrack t lba) :
    ∃ idx, ChdImage.update_current_track s lba = .ok idx := by
  rcases hu : ChdImage.update_current_track s lba with e | idx
  · obtain ⟨-, hall⟩ := update_current_track_err s lba e hu
    obtain ⟨t, ht, hin⟩ := hex
    exact absurd hin (hall t ht)
  · exact ⟨idx, rfl⟩

lemma hunk_no_for_lba_err (s : ChdImage) (lba : Nat) (e : ImageError)
    (h : ChdImage.hunk_no_for_lba s lba = .error e) : e = .OutOfRange := by
  unfold ChdImage.hunk_no_for_lba at h
  simp only [] at h
  split at h
  · exact (Except.error.inj h).symm
  · split at h
    · exact (Except.error.inj h).symm
    · exact absurd h (by simp)

lemma set_location_lba_fst (s : ChdImage) (lba : Nat) :
    (ChdImage.set_location_lba s lba).1 = .ok () ∨
    (ChdImage.set_location_lba s lba).1 = .error .OutOfRange := by
  unfold ChdImage.set_location_lba
  simp only []
  split
  · exact .inl rfl
  · rcases hu : ChdImage.update_current_track { s with current_lba := lba, current_hunk_no := none } lba with e | idx
    · obtain ⟨he, -⟩ := update_current_track_err _ _ _ hu
      subst he
      exact .inr rfl
    · dsimp only []
      rcases hh : ChdImage.hunk_no_for_lba { s with current_lba := lba, current_hunk_no := none, current_track := idx } lba with e | hunk_no
      · have he := hunk_no_for_lba_err _ _ _ hh
        subst he
        exact .inr rfl
      · exact .inl rfl

lemma set_location_lba_ok_inv (s : ChdImage) (lba : Nat)
    (hne : s.tracks ≠ [])
    (h : (ChdImage.set_location_lba s lba).1 = .ok ()) :
    ChdPosInv (ChdImage.set_location_lba s lba).2 := by
  have h150 : FIRST_TRACK_PREGAP = 150 := rfl
  unfold ChdImage.set_location_lba at h ⊢
  simp only [] at h ⊢
  by_cases hlt : lba < FIRST_TRACK_PREGAP
  · rw [if_pos hlt] at h ⊢
    exact ⟨List.length_pos.mpr hne, fun _ => rfl,
      fun hge => absurd (show (150 : Nat) ≤ lba from hge) (by omega)⟩
  · rw [if_neg hlt] at h ⊢
    rcases hu : ChdImage.update_current_track { s with current_lba := lba, current_hunk_no := none } lba with e | idx
    · rw [hu] at h
      exact absurd h (by simp)
    · rw [hu] at h
      dsimp only [] at h ⊢
      obtain ⟨hidx, hin⟩ := update_current_track_ok _ lba idx hu
      rcases hh : ChdImage.hunk_no_for_lba { s with current_lba := lba, current_hunk_no := none, current_track := idx } lba with e | hunk_no
      · rw [hh] at h
        exact absurd h (by simp)
      · dsimp only []
        split
        · exact ⟨hidx, fun hc => absurd (show lba < 150 from hc) (by omega),
            fun _ => hin⟩
        · exact ⟨hidx, fun hc => absurd (show lba < 150 from hc) (by omega),
            fun _ => hin⟩

lemma set_location_lba_noTrack (s : ChdImage) (lba : Nat)
    (hge : 150 ≤ lba) (hall : ∀ t ∈ s.tracks, ¬ inTrack t lba) :
    (ChdImage.set_location_lba s lba).1 = .error .OutOfRange ∧
    (ChdImage.set_location_lba s lba).2.current_track = s.current_track ∧
    (ChdImage.set_location_lba s lba).2.current_lba = lba := by
  have h150 : FIRST_TRACK_PREGAP = 150 := rfl
  unfold ChdImage.set_location_lba
  simp only []
  rw [if_neg (by omega)]
  rcases hu : ChdImage.update_current_track { s with current_lba := lba, current_hunk_no := none } lba with e | idx
  · obtain ⟨he, -⟩ := update_current_track_err _ _ _ hu
    subst he
    exact ⟨rfl, rfl, rfl⟩
  · exfalso
    obtain ⟨hidx, hin⟩ := update_current_track_ok _ lba idx hu
    have hmem : s.tracks.getD idx default ∈ s.tracks := by
      rw [List.getD_eq_getElem _ _ hidx]
      exact List.getElem_mem _
    exact hall _ hmem hin

lemma set_location_lba_in_disc (s : ChdImage) (lba : Nat)
    (hge : 150 ≤ lba)
    (hcover : hunksCoverB s.sectors_per_hunk s.num_hunks s.tracks = true)
    (hex : ∃ t ∈ s.tracks, inTrack t lba) :
    (ChdImage.set_location_lba s lba).1 = .ok () := by
  have h150 : FIRST_TRACK_PREGAP = 150 := rfl
  unfold ChdImage.set_location_lba
  simp only []
  rw [if_neg (by omega)]
  obtain ⟨idx, hu⟩ := update_current_track_found
    { s with current_lba := lba, current_hunk_no := none } lba hex
  rw [hu]
  dsimp only []
  obtain ⟨hidx, hin⟩ := update_current_track_ok _ lba idx hu
  dsimp only [] at hidx hin
  rcases hh : ChdImage.hunk_no_for_lba { s with current_lba := lba, current_hunk_no := none, current_track := idx } lba with e | hunk_no
  · exfalso
    unfold ChdImage.hunk_no_for_lba at hh
    dsimp only [] at hh
    rw [if_neg (by omega)] at hh
    have hmem : s.tracks.getD idx default ∈ s.tracks := by
      rw [List.getD_eq_getElem _ _ hidx]
      exact List.getElem_mem _
    have hframes : 0 < (s.tracks.getD idx default).track_info.frames := by
      rcases hin with ⟨h1, h2⟩
      omega
    have hbound := hunksCover_mem s.sectors_per_hunk s.num_hunks s.tracks
      hcover _ hmem hframes
    have hmono : (lba + (s.tracks.getD idx default).padding_offset -
        FIRST_TRACK_PREGAP) / s.sectors_per_hunk ≤
        ((s.tracks.getD idx default).start_lba +
          (s.tracks.getD idx default).track_info.frames - 1 +
          (s.tracks.getD idx default).padding_offset -
          FIRST_TRACK_PREGAP) / s.sectors_per_hunk := by
      apply Nat.div_le_div_right
      rcases hin with ⟨h1, h2⟩
      omega
    rw [if_neg (by omega)] at hh
    exact absurd hh (by simp)
  · rfl

lemma update_current_track_fast (s : ChdImage) (lba : Nat)
    (hin : inTrack (s.tracks.getD s.current_track default) lba) :
    ChdImage.update_current_track s lba = .ok s.current_track := by
  unfold ChdImage.update_current_track
  rw [if_pos hin]

lemma set_location_lba_state (s : ChdImage) (lba : Nat) :
    (ChdImage.set_location_lba s lba).2.current_lba = lba ∧
    (ChdImage.set_location_lba s lba).2.tracks = s.tracks ∧
    (∀ idx, ChdImage.update_current_track { s with current_lba := lba, current_hunk_no := none } lba = .ok idx →
      ¬ lba < FIRST_TRACK_PREGAP →
      (ChdImage.set_location_lba s lba).2.current_track = idx) := by
  unfold ChdImage.set_location_lba
  simp only []
  split
  · exact ⟨rfl, rfl, fun idx _ hc => absurd (by assumption) hc⟩
  · rcases hu : ChdImage.update_current_track { s with current_lba := lba, current_hunk_no := none } lba with e | idx
    · exact ⟨rfl, rfl, fun idx2 h2 _ => absurd h2 (by simp)⟩
    · dsimp only []
      rcases hh : ChdImage.hunk_no_for_lba { s with current_lba := lba, current_hunk_no := none, current_track := idx } lba with e | hunk_no
      · exact ⟨rfl, rfl, fun idx2 h2 hlt2 => Except.ok.inj h2⟩
      · dsimp only []
        split
        · exact ⟨rfl, rfl, fun idx2 h2 hlt2 => Except.ok.inj h2⟩
        · exact ⟨rfl, rfl, fun idx2 h2 hlt2 => Except.ok.inj h2⟩

lemma posInv_getD_mem (s : ChdImage) (hpos : ChdPosInv s) :
    s.tracks.getD s.current_track default ∈ s.tracks := by
  rw [List.getD_eq_getElem _ _ hpos.1]
  exact List.getElem_mem _

lemma posInv_succ_le (s : ChdImage)
    (hchain : tracksChainFromB FIRST_TRACK_PREGAP s.tracks = true)
    (hpos : ChdPosInv s) : s.current_lba + 1 ≤ disc_end s := by
  have hde : disc_end s = 150 + totalFrames s.tracks := rfl
  by_cases hlt : s.current_lba < 150
  · omega
  · have hin := hpos.2.2 (by omega)
    have hend := tracksChain_mem_end_le FIRST_TRACK_PREGAP s.tracks hchain _
      (posInv_getD_mem s hpos)
    have h150 : FIRST_TRACK_PREGAP = 150 := rfl
    rcases hin with ⟨h1, h2⟩
    omega

lemma advance_position_spec (s : ChdImage)
    (hne : s.tracks ≠ [])
    (hchain : tracksChainFromB FIRST_TRACK_PREGAP s.tracks = true)
    (hcover : hunksCoverB s.sectors_per_hunk s.num_hunks s.tracks = true)
    (hpos : ChdPosInv s) :
    ((ChdImage.advance_position s).1 = .ok (some .EndOfDisc) ↔
      s.current_lba + 1 = disc_end s) ∧
    ((ChdImage.advance_position s).1 = .ok (some .TrackChange) ↔
      (ChdImage.advance_position s).2.current_track ≠ s.current_track) ∧
    ((ChdImage.advance_position s).1 = .ok none ↔
      ((ChdImage.advance_position s).2.current_track = s.current_track ∧
        s.current_lba + 1 ≠ disc_end s)) ∧
    ((ChdImage.advance_position s).1 ≠ .ok (some .EndOfDisc) →
      ChdPosInv (ChdImage.advance_position s).2) := by
  have h150 : FIRST_TRACK_PREGAP = 150 := rfl
  have hde : disc_end s = 150 + totalFrames s.tracks := rfl
  have hsucc := posInv_succ_le s hchain hpos
  by_cases hend : s.current_lba + 1 = disc_end s
  · -- the step past the last sector: set_location fails with OutOfRange
    have hnotrack : ∀ t ∈ s.tracks, ¬ inTrack t (s.current_lba + 1) := by
      intro t ht hin
      have := (tracksChain_mem_iff FIRST_TRACK_PREGAP (s.current_lba + 1)
        s.tracks hchain).mp ⟨t, ht, hin⟩
      omega
    obtain ⟨hfst, htrk, hlba⟩ := set_location_lba_noTrack s (s.current_lba + 1)
      (by omega) hnotrack
    unfold ChdImage.advance_position
    simp only []
    rw [hfst]
    refine ⟨by simp [hend], ?_, ?_, ?_⟩
    · constructor
      · intro hc
        exact absurd hc (by simp)
      · intro hc
        exact absurd htrk hc
    · constructor
      · intro hc
        exact absurd hc (by simp)
      · intro hc
        exact absurd hend hc.2
    · intro hc
      exact absurd rfl hc
  · -- in-disc step: set_location succeeds
    have hok : (ChdImage.set_location_lba s (s.current_lba + 1)).1 = .ok () := by
      by_cases hlt : s.current_lba + 1 < 150
      · unfold ChdImage.set_location_lba
        simp only []
        rw [if_pos (by omega)]
      · apply set_location_lba_in_disc s (s.current_lba + 1) (by omega) hcover
        apply (tracksChain_mem_iff FIRST_TRACK_PREGAP (s.current_lba + 1)
          s.tracks hchain).mpr
        omega
    have hinv := set_location_lba_ok_inv s (s.current_lba + 1) hne hok
    unfold ChdImage.advance_position
    simp only []
    rw [hok]
    by_cases hchg : (ChdImage.set_location_lba s (s.current_lba + 1)).2.current_track = s.current_track
    · rw [if_neg (by simpa using hchg)]
      refine ⟨by simp [hend], by simp [hchg], by simp [hchg, hend], fun _ => hinv⟩
    · rw [if_pos (by simpa using hchg)]
      refine ⟨by simp [hend], by simp [hchg], by simp [hchg], fun _ => hinv⟩

lemma sumf_take_succ {α : Type} [Inhabited α] (f : α → Nat) (l : List α)
    (i : Nat) (hi : i < l.length) :
    ((l.take (i + 1)).map f).sum = ((l.take i).map f).sum + f (l.getD i default) := by
  induction l generalizing i with
  | nil => simp at hi
  | cons x xs ih =>
    cases i with
    | zero => simp
    | succ i =>
      simp only [List.take_succ_cons, List.map_cons, List.sum_cons,
        List.getD_cons_succ]
      rw [ih i (by simpa using hi)]
      omega

lemma sumf_take_le {α : Type} (f : α → Nat) (l : List α) (i : Nat) :
    ((l.take i).map f).sum ≤ (l.map f).sum := by
  conv_rhs => rw [← List.take_append_drop i l]
  rw [List.map_append, List.sum_append]
  exact Nat.le_add_right _ _

lemma scanTracks_some (l : List CueTrack) (left tn : Nat)
    (h : (scanTracks l left).1 = some tn) :
    tn < l.length ∧ cueTrackSum (l.take tn) ≤ left ∧
    left < cueTrackSum (l.take (tn + 1)) := by
  induction l generalizing left tn with
  | nil => simp [scanTracks] at h
  | cons t rest ih =>
    unfold scanTracks at h
    by_cases hlt : left < t.num_sectors
    · rw [if_pos hlt] at h
      injection h with h
      subst h
      simp only [List.take_zero, List.take_succ_cons, List.take_zero]
      simp [cueTrackSum]
      omega
    · rw [if_neg hlt] at h
      simp only [Option.map_eq_some'] at h
      obtain ⟨tn2, h2, rfl⟩ := h
      obtain ⟨hlen, hle, hgt⟩ := ih (left - t.num_sectors) tn2 h2
      refine ⟨by simpa using hlen, ?_, ?_⟩
      · simp only [List.take_succ_cons, cueTrackSum, List.map_cons, List.sum_cons]
        simp only [cueTrackSum] at hle
        omega
      · simp only [List.take_succ_cons, cueTrackSum, List.map_cons, List.sum_cons]
        simp only [cueTrackSum] at hgt
        omega

lemma scanTracks_none (l : List CueTrack) (left : Nat)
    (h : (scanTracks l left).1 = none) :
    (scanTracks l left).2 = left - cueTrackSum l ∧ cueTrackSum l ≤ left := by
  induction l generalizing left with
  | nil => simp [scanTracks, cueTrackSum]
  | cons t rest ih =>
    unfold scanTracks at h ⊢
    by_cases hlt : left < t.num_sectors
    · rw [if_pos hlt] at h
      exact absurd h (by simp)
    · rw [if_neg hlt] at h ⊢
      simp only [Option.map_eq_none'] at h
      obtain ⟨h2, hle⟩ := ih (left - t.num_sectors) h
      simp only [cueTrackSum, List.map_cons, List.sum_cons]
      simp only [cueTrackSum] at h2 hle
      constructor
      · rw [h2]
        omega
      · omega

lemma scanBins_some (bins : List BinFile) (left bn tn off : Nat)
    (wf : ∀ b ∈ bins, binWFB b = true)
    (h : scanBins bins left = some (bn, tn, off)) :
    bn < bins.length ∧
    ((bins.take bn).map BinFile.num_sectors).sum ≤ left ∧
    off = left - ((bins.take bn).map BinFile.num_sectors).sum ∧
    tn < (bins.getD bn default).tracks.length ∧
    cueTrackSum ((bins.getD bn default).tracks.take tn) ≤ off ∧
    off < cueTrackSum ((bins.getD bn default).tracks.take (tn + 1)) := by
  induction bins generalizing left bn tn off with
  | nil => simp [scanBins] at h
  | cons b rest ih =>
    have hwfb := wf b (List.mem_cons_self b rest)
    have hsum : cueTrackSum b.tracks = b.num_sectors := by
      unfold binWFB at hwfb
      simp only [Bool.and_eq_true, beq_iff_eq] at hwfb
      exact hwfb.1.2
    unfold scanBins at h
    by_cases hlt : left < b.num_sectors
    · rw [if_pos hlt] at h
      rcases hscan : scanTracks b.tracks left with ⟨otn, left2⟩
      rw [hscan] at h
      rcases otn with _ | tn2
      · -- inner loop ran out: the outer loop continues with the remainder
        simp only [Option.map_eq_some'] at h
        obtain ⟨⟨bn2, tn3, off2⟩, h2, heq⟩ := h
        have hbn : bn = bn2 + 1 := by
          have := congrArg Prod.fst heq
          simpa using this.symm
        have htn : tn = tn3 := by
          have := congrArg (fun p => p.2.1) heq
          simpa using this.symm
        have hoff : off = off2 := by
          have := congrArg (fun p => p.2.2) heq
          simpa using this.symm
        subst hbn htn hoff
        obtain ⟨hleft2, hsumle⟩ := scanTracks_none b.tracks left (by rw [hscan])
        rw [hscan] at hleft2
        simp only [] at hleft2
        subst hleft2
        rw [hsum] at hsumle
        obtain ⟨h1, h2a, h3, h4, h5, h6⟩ := ih (left - cueTrackSum b.tracks)
          bn2 tn off (fun x hx => wf x (List.mem_cons_of_mem b hx)) h2
        rw [hsum] at h2a h3
        refine ⟨by simpa using h1, ?_, ?_, by simpa using h4, by simpa using h5,
          by simpa using h6⟩
        · simp only [List.take_succ_cons, List.map_cons, List.sum_cons]
          omega
        · simp only [List.take_succ_cons, List.map_cons, List.sum_cons]
          omega
      · -- track found in this bin file
        have hbn : bn = 0 := by
          have := congrArg (fun p => p.getD default |>.1) h
          simpa using this.symm
        have htn : tn = tn2 := by
          have := congrArg (fun p => (p.getD default).2.1) h
          simpa using this.symm
        have hoff : off = left := by
          have := congrArg (fun p => (p.getD default).2.2) h
          simpa using this.symm
        subst hbn htn hoff
        obtain ⟨hl, hle, hgt⟩ := scanTracks_some b.tracks off tn (by rw [hscan])
        exact ⟨by simp, by simp, by simp, by simpa using hl, by simpa using hle,
          by simpa using hgt⟩
    · rw [if_neg hlt] at h
      simp only [Option.map_eq_some'] at h
      obtain ⟨⟨bn2, tn3, off2⟩, h2, heq⟩ := h
      have hbn : bn = bn2 + 1 := by
        have := congrArg Prod.fst heq
        simpa using this.symm
      have htn : tn = tn3 := by
        have := congrArg (fun p => p.2.1) heq
        simpa using this.symm
      have hoff : off = off2 := by
        have := congrArg (fun p => p.2.2) heq
        simpa using this.symm
      subst hbn htn hoff
      obtain ⟨h1, h2a, h3, h4, h5, h6⟩ := ih (left - b.num_sectors) bn2 tn off
        (fun x hx => wf x (List.mem_cons_of_mem b hx)) h2
      refine ⟨by simpa using h1, ?_, ?_, by simpa using h4, by simpa using h5,
        by simpa using h6⟩
      · simp only [List.take_succ_cons, List.map_cons, List.sum_cons]
        omega
      · simp only [List.take_succ_cons, List.map_cons, List.sum_cons]
        omega

lemma cueChain_getD_start (l : List CueTrack) (start : Nat)
    (hchain : cueTracksChainB start l = true) (i : Nat) (hi : i < l.length) :
    (l.getD i default).starting_lba = start + cueTrackSum (l.take i) := by
  induction l generalizing start i with
  | nil => simp at hi
  | cons t rest ih =>
    rw [cueTracksChainB, Bool.and_eq_true, beq_iff_eq] at hchain
    obtain ⟨hstart, hrest⟩ := hchain
    cases i with
    | zero => simpa [cueTrackSum] using hstart
    | succ i =>
      simp only [List.getD_cons_succ, List.take_succ_cons, cueTrackSum,
        List.map_cons, List.sum_cons]
      rw [ih (start + t.num_sectors) hrest i (by simpa using hi)]
      simp only [cueTrackSum]
      omega

lemma getD_mem_of_lt {α : Type} [Inhabited α] (l : List α) (i : Nat)
    (hi : i < l.length) : l.getD i default ∈ l := by
  rw [List.getD_eq_getElem _ _ hi]
  exact List.getElem_mem _

lemma binWFB_spec (b : BinFile) (h : binWFB b = true) :
    b.tracks ≠ [] ∧ cueTracksChainB 0 b.tracks = true ∧
    cueTrackSum b.tracks = b.num_sectors ∧
    ∀ t ∈ b.tracks, 0 < t.num_sectors := by
  unfold binWFB at h
  simp only [Bool.and_eq_true, beq_iff_eq, List.all_eq_true,
    decide_eq_true_eq, Bool.not_eq_true'] at h
  refine ⟨?_, h.1.1.2, h.1.2, h.2⟩
  intro hnil
  rw [hnil] at h
  simp at h

lemma binWFB_pos (b : BinFile) (h : binWFB b = true) : 0 < b.num_sectors := by
  obtain ⟨hne, -, hsum, hpos⟩ := binWFB_spec b h
  rcases hb : b.tracks with _ | ⟨t, rest⟩
  · exact absurd hb hne
  · have := hpos t (by rw [hb]; exact List.mem_cons_self t rest)
    rw [← hsum, hb]
    simp only [cueTrackSum, List.map_cons, List.sum_cons]
    omega

lemma cue_set_location_ok_inv (s : Cuesheet) (lba : Nat) (s2 : Cuesheet)
    (hwf : CueWF s) (h : Cuesheet.set_location s lba = .ok s2) :
    CuePosInv s2 := by
  obtain ⟨hne, hall⟩ := hwf
  have hbin0 : 0 < s.bin_files.length := List.length_pos.mpr hne
  unfold Cuesheet.set_location at h
  by_cases hlt : lba < 150
  · rw [if_pos hlt] at h
    injection h with h
    subst h
    obtain ⟨htne, -, -, -⟩ := binWFB_spec _ (hall _ (getD_mem_of_lt _ 0 hbin0))
    exact ⟨hbin0, List.length_pos.mpr htne,
      fun _ => ⟨rfl, rfl, rfl⟩,
      fun hge => absurd (show (150 : Nat) ≤ lba from hge) (by omega)⟩
  · rw [if_neg hlt] at h
    rcases hscan : scanBins s.bin_files (lba - 150) with _ | ⟨bn, tn, off⟩
    · rw [hscan] at h
      exact absurd h (by simp)
    · rw [hscan] at h
      injection h with h
      subst h
      obtain ⟨hbn, hsle, hoff, htn, htle, htgt⟩ :=
        scanBins_some s.bin_files (lba - 150) bn tn off hall hscan
      obtain ⟨-, hchain, -, hpos⟩ :=
        binWFB_spec _ (hall _ (getD_mem_of_lt _ bn hbn))
      have hstart := cueChain_getD_start _ 0 hchain tn htn
      have hsucc : cueTrackSum ((s.bin_files.getD bn default).tracks.take (tn + 1)) =
          cueTrackSum ((s.bin_files.getD bn default).tracks.take tn) +
          ((s.bin_files.getD bn default).tracks.getD tn default).num_sectors := by
        simpa [cueTrackSum] using
          sumf_take_succ (fun t => t.num_sectors)
            (s.bin_files.getD bn default).tracks tn htn
      refine ⟨hbn, htn, fun hc => absurd (show lba < 150 from hc) (by omega),
        fun _ => ⟨?_, ?_, ?_⟩⟩
      · show lba = 150 + ((s.bin_files.take bn).map BinFile.num_sectors).sum + off
        omega
      · show ((s.bin_files.getD bn default).tracks.getD tn default).starting_lba ≤ off
        omega
      · show off < ((s.bin_files.getD bn default).tracks.getD tn default).starting_lba +
          ((s.bin_files.getD bn default).tracks.getD tn default).num_sectors
        omega

lemma cue_disc_end_gt (s : Cuesheet) (hwf : CueWF s) : 150 < cue_disc_end s := by
  obtain ⟨hne, hall⟩ := hwf
  rcases hb : s.bin_files with _ | ⟨b, rest⟩
  · exact absurd hb hne
  · have hpos := binWFB_pos b (hall b (by rw [hb]; exact List.mem_cons_self b rest))
    unfold cue_disc_end
    rw [hb]
    simp only [List.map_cons, List.sum_cons]
    omega

lemma cue_advance_spec (s : Cuesheet) (hwf : CueWF s) (hpos : CuePosInv s) :
    ((Cuesheet.advance_position s).1 = some .EndOfDisc ↔
      s.location.global_lba + 1 = cue_disc_end s) ∧
    ((Cuesheet.advance_position s).1 = some .TrackChange ↔
      Cuesheet.current_track_number (Cuesheet.advance_position s).2 ≠
        Cuesheet.current_track_number s) ∧
    ((Cuesheet.advance_position s).1 = none ↔
      (Cuesheet.current_track_number (Cuesheet.advance_position s).2 =
        Cuesheet.current_track_number s ∧
       s.location.global_lba + 1 ≠ cue_disc_end s)) ∧
    ((Cuesheet.advance_position s).1 ≠ some .EndOfDisc →
      CuePosInv (Cuesheet.advance_position s).2) := by
  obtain ⟨hne, hall⟩ := hwf
  obtain ⟨hbn, htn, hpre, hmain⟩ := hpos
  have hdgt := cue_disc_end_gt s ⟨hne, hall⟩
  have hde : cue_disc_end s = 150 + (s.bin_files.map BinFile.num_sectors).sum := rfl
  obtain ⟨hbne, hchain, hbsum, hbpos⟩ :=
    binWFB_spec _ (hall _ (getD_mem_of_lt _ s.location.bin_file_no hbn))
  have hstart := cueChain_getD_start _ 0 hchain s.location.track_in_bin htn
  have htsucc : cueTrackSum ((s.bin_files.getD s.location.bin_file_no
        default).tracks.take (s.location.track_in_bin + 1)) =
      cueTrackSum ((s.bin_files.getD s.location.bin_file_no
        default).tracks.take s.location.track_in_bin) +
      ((s.bin_files.getD s.location.bin_file_no default).tracks.getD
        s.location.track_in_bin default).num_sectors := by
    simpa [cueTrackSum] using
      sumf_take_succ (fun t => t.num_sectors)
        (s.bin_files.getD s.location.bin_file_no default).tracks
        s.location.track_in_bin htn
  have htle : cueTrackSum ((s.bin_files.getD s.location.bin_file_no
        default).tracks.take (s.location.track_in_bin + 1)) ≤
      (s.bin_files.getD s.location.bin_file_no default).num_sectors := by
    rw [← hbsum]
    exact sumf_take_le _ _ _
  have hbsucc : ((s.bin_files.take (s.location.bin_file_no + 1)).map
        BinFile.num_sectors).sum =
      ((s.bin_files.take s.location.bin_file_no).map BinFile.num_sectors).sum +
      (s.bin_files.getD s.location.bin_file_no default).num_sectors :=
    sumf_take_succ BinFile.num_sectors s.bin_files s.location.bin_file_no hbn
  have hble : ((s.bin_files.take (s.location.bin_file_no + 1)).map
        BinFile.num_sectors).sum ≤ (s.bin_files.map BinFile.num_sectors).sum :=
    sumf_take_le _ _ _
  unfold Cuesheet.advance_position
  simp only []
  by_cases hpree : s.location.global_lba < 150
  · rw [if_pos hpree]
    obtain ⟨hb0, ht0, hl0⟩ := hpre hpree
    refine ⟨by simp; omega, by simp [Cuesheet.current_track_number], ?_, ?_⟩
    · constructor
      · intro _
        exact ⟨by simp [Cuesheet.current_track_number], by omega⟩
      · intro _
        rfl
    · intro _
      refine ⟨hbn, htn, fun _ => ⟨hb0, ht0, hl0⟩, fun hge2 => ?_⟩
      have hglobal : s.location.global_lba + 1 = 150 := by
        have : s.location.global_lba + 1 ≥ 150 := hge2
        omega
      have hstart0 := cueChain_getD_start _ 0 hchain 0 (List.length_pos.mpr hbne)
      refine ⟨?_, ?_, ?_⟩
      · show s.location.global_lba + 1 =
          150 + binSectorsBefore s + s.location.bin_local_lba
        unfold binSectorsBefore
        rw [hb0, hl0]
        simp [hglobal]
      · show ((s.bin_files.getD s.location.bin_file_no default).tracks.getD
            s.location.track_in_bin default).starting_lba ≤ s.location.bin_local_lba
        rw [ht0, hl0, hstart0]
        simp [cueTrackSum]
      · show s.location.bin_local_lba <
          ((s.bin_files.getD s.location.bin_file_no default).tracks.getD
            s.location.track_in_bin default).starting_lba +
          ((s.bin_files.getD s.location.bin_file_no default).tracks.getD
            s.location.track_in_bin default).num_sectors
        have hp := hbpos _ (getD_mem_of_lt _ s.location.track_in_bin htn)
        rw [hl0]
        omega
  · rw [if_neg hpree]
    obtain ⟨hlink, hsle, hslt⟩ := hmain (by omega)
    by_cases hA : s.location.bin_local_lba + 1 <
        ((s.bin_files.getD s.location.bin_file_no default).tracks.getD
          s.location.track_in_bin default).starting_lba +
        ((s.bin_files.getD s.location.bin_file_no default).tracks.getD
          s.location.track_in_bin default).num_sectors
    · rw [if_pos hA]
      have hnotend : s.location.global_lba + 1 ≠ cue_disc_end s := by
        have h1 : s.location.bin_local_lba + 1 <
            cueTrackSum ((s.bin_files.getD s.location.bin_file_no
              default).tracks.take (s.location.track_in_bin + 1)) := by
          omega
        unfold binSectorsBefore at hlink
        omega
      refine ⟨by simp [hnotend], by simp [Cuesheet.current_track_number], ?_, ?_⟩
      · constructor
        · intro _
          exact ⟨by simp [Cuesheet.current_track_number], hnotend⟩
        · intro _
          rfl
      · intro _
        refine ⟨hbn, htn, fun hc =>
          absurd (show s.location.global_lba + 1 < 150 from hc) (by omega),
          fun _ => ⟨?_, ?_, ?_⟩⟩
        · show s.location.global_lba + 1 =
            150 + binSectorsBefore s + (s.location.bin_local_lba + 1)
          unfold binSectorsBefore at hlink ⊢
          omega
        · show ((s.bin_files.getD s.location.bin_file_no default).tracks.getD
              s.location.track_in_bin default).starting_lba ≤
            s.location.bin_local_lba + 1
          omega
        · exact hA
    · rw [if_neg hA]
      have hlocend : s.location.bin_local_lba + 1 =
          ((s.bin_files.getD s.location.bin_file_no default).tracks.getD
            s.location.track_in_bin default).starting_lba +
          ((s.bin_files.getD s.location.bin_file_no default).tracks.getD
            s.location.track_in_bin default).num_sectors := by
        omega
      by_cases hB : s.location.track_in_bin + 1 <
          (s.bin_files.getD s.location.bin_file_no default).tracks.length
      · rw [if_pos hB]
        have hnum : Cuesheet.current_track_number
            { s with location :=
              { s.location with
                global_lba := s.location.global_lba + 1,
                bin_local_lba := s.location.bin_local_lba + 1,
                track_in_bin := s.location.track_in_bin + 1 } } ≠
            Cuesheet.current_track_number s := by
          simp only [Cuesheet.current_track_number]
          intro hc
          injection hc with hc
          omega
        have hnotend : s.location.global_lba + 1 ≠ cue_disc_end s := by
          have hlt2 : cueTrackSum ((s.bin_files.getD s.location.bin_file_no
              default).tracks.take (s.location.track_in_bin + 1)) <
              (s.bin_files.getD s.location.bin_file_no default).num_sectors := by
            have hs2 := sumf_take_succ (fun t => t.num_sectors)
              (s.bin_files.getD s.location.bin_file_no default).tracks
              (s.location.track_in_bin + 1) hB
            have hle2 : (((s.bin_files.getD s.location.bin_file_no
                default).tracks.take (s.location.track_in_bin + 1 + 1)).map
                (fun t => t.num_sectors)).sum ≤
                (s.bin_files.getD s.location.bin_file_no default).num_sectors := by
              rw [← hbsum]
              exact sumf_take_le _ _ _
            have hp2 := hbpos _ (getD_mem_of_lt _ (s.location.track_in_bin + 1) hB)
            simp only [cueTrackSum] at *
            omega
          unfold binSectorsBefore at hlink
          omega
        refine ⟨by simp [hnotend], by simpa using hnum, ?_, ?_⟩
        · constructor
          · intro hc
            exact absurd hc (by simp)
          · intro hc
            exact absurd hnum (by simp [hc.1])
        · intro _
          have hstart2 := cueChain_getD_start _ 0 hchain
            (s.location.track_in_bin + 1) hB
          have hp2 := hbpos _ (getD_mem_of_lt _ (s.location.track_in_bin + 1) hB)
          refine ⟨hbn, hB, fun hc =>
            absurd (show s.location.global_lba + 1 < 150 from hc) (by omega),
            fun _ => ⟨?_, ?_, ?_⟩⟩
          · show s.location.global_lba + 1 =
              150 + binSectorsBefore s + (s.location.bin_local_lba + 1)
            unfold binSectorsBefore at hlink ⊢
            omega
          · show ((s.bin_files.getD s.location.bin_file_no default).tracks.getD
                (s.location.track_in_bin + 1) default).starting_lba ≤
              s.location.bin_local_lba + 1
            rw [hstart2]
            omega
          · show s.location.bin_local_lba + 1 <
              ((s.bin_files.getD s.location.bin_file_no default).tracks.getD
                (s.location.track_in_bin + 1) default).starting_lba +
              ((s.bin_files.getD s.location.bin_file_no default).tracks.getD
                (s.location.track_in_bin + 1) default).num_sectors
            rw [hstart2]
            omega
      · rw [if_neg hB]
        have htiblast : s.location.track_in_bin + 1 =
            (s.bin_files.getD s.location.bin_file_no default).tracks.length := by
          omega
        have htake_all : ((s.bin_files.getD s.location.bin_file_no
            default).tracks.take (s.location.track_in_bin + 1)) =
            (s.bin_files.getD s.location.bin_file_no default).tracks := by
          rw [htiblast]
          exact List.take_length _
        have hsum_all : cueTrackSum ((s.bin_files.getD s.location.bin_file_no
            default).tracks.take (s.location.track_in_bin + 1)) =
            cueTrackSum (s.bin_files.getD s.location.bin_file_no
              default).tracks := by
          rw [htake_all]
        have hendbin : s.location.bin_local_lba + 1 =
            (s.bin_files.getD s.location.bin_file_no default).num_sectors := by
          omega
        by_cases hC : s.location.bin_file_no + 1 < s.bin_files.length
        · rw [if_pos hC]
          obtain ⟨hbne2, hchain2, hbsum2, hbpos2⟩ :=
            binWFB_spec _ (hall _ (getD_mem_of_lt _ (s.location.bin_file_no + 1) hC))
          have hnum : Cuesheet.current_track_number
              { s with location :=
                { s.location with
                  global_lba := s.location.global_lba + 1,
                  bin_local_lba := 0,
                  bin_file_no := s.location.bin_file_no + 1,
                  track_in_bin := 0 } } ≠
              Cuesheet.current_track_number s := by
            simp only [Cuesheet.current_track_number]
            intro hc
            injection hc with hc
            have htakes := sumf_take_succ (fun b => b.tracks.length)
              s.bin_files s.location.bin_file_no hbn
            simp only [] at htakes hc
            omega
          have hnotend : s.location.global_lba + 1 ≠ cue_disc_end s := by
            have hlt3 : ((s.bin_files.take (s.location.bin_file_no + 1)).map
                BinFile.num_sectors).sum < (s.bin_files.map BinFile.num_sectors).sum := by
              have hs3 := sumf_take_succ BinFile.num_sectors s.bin_files
                (s.location.bin_file_no + 1) hC
              have hle3 := sumf_take_le BinFile.num_sectors s.bin_files
                (s.location.bin_file_no + 1 + 1)
              have hp3 := binWFB_pos _ (hall _ (getD_mem_of_lt _
                (s.location.bin_file_no + 1) hC))
              omega
            unfold binSectorsBefore at hlink
            omega
          refine ⟨by simp [hnotend], by simpa using hnum, ?_, ?_⟩
          · constructor
            · intro hc
              exact absurd hc (by simp)
            · intro hc
              exact absurd hnum (by simp [hc.1])
          · intro _
            have hstart3 := cueChain_getD_start _ 0 hchain2 0
              (List.length_pos.mpr hbne2)
            have hp3 := hbpos2 _ (getD_mem_of_lt _ 0 (List.length_pos.mpr hbne2))
            refine ⟨hC, List.length_pos.mpr hbne2,
              fun hc =>
                absurd (show s.location.global_lba + 1 < 150 from hc) (by omega),
              fun _ => ⟨?_, ?_, ?_⟩⟩
            · show s.location.global_lba + 1 =
                150 + ((s.bin_files.take (s.location.bin_file_no + 1)).map
                  BinFile.num_sectors).sum + 0
              unfold binSectorsBefore at hlink
              omega
            · show ((s.bin_files.getD (s.location.bin_file_no + 1) default).tracks.getD
                  0 default).starting_lba ≤ 0
              rw [hstart3]
              simp [cueTrackSum]
            · show (0 : Nat) <
                ((s.bin_files.getD (s.location.bin_file_no + 1) default).tracks.getD
                  0 default).starting_lba +
                ((s.bin_files.getD (s.location.bin_file_no + 1) default).tracks.getD
                  0 default).num_sectors
              omega
        · rw [if_neg hC]
          have hbnlast : s.location.bin_file_no + 1 = s.bin_files.length := by
            omega
          have hsumall : ((s.bin_files.take (s.location.bin_file_no + 1)).map
              BinFile.num_sectors).sum = (s.bin_files.map BinFile.num_sectors).sum := by
            rw [hbnlast, List.take_length]
          have hisend : s.location.global_lba + 1 = cue_disc_end s := by
            unfold binSectorsBefore at hlink
            omega
          refine ⟨by simp [hisend], ?_, ?_, ?_⟩
          · constructor
            · intro hc
              exact absurd hc (by simp)
            · intro hc
              exact absurd rfl hc
          · constructor
            · intro hc
              exact absurd hc (by simp)
            · intro hc
              exact absurd hisend hc.2
          · intro hc
            exact absurd rfl hc

lemma cueBin0_ns : cueBin0.num_sectors = 2 := by
  unfold BinFile.num_sectors cueBin0
  dsimp only []
  rw [List.length_map, List.length_range]

lemma cueBin1_ns : cueBin1.num_sectors = 1 := by
  unfold BinFile.num_sectors cueBin1
  dsimp only []
  rw [List.length_replicate]

lemma cueBin0_wfb : binWFB cueBin0 = true := by
  unfold binWFB
  rw [cueBin0_ns]
  decide

lemma cueBin1_wfb : binWFB cueBin1 = true := by
  unfold binWFB
  rw [cueBin1_ns]
  decide

lemma cueEx_wf : CueWF cueEx := by
  constructor
  · intro hc
    exact List.cons_ne_nil _ _ hc
  · intro b hb
    rcases List.mem_cons.mp hb with h | h
    · rw [h]
      exact cueBin0_wfb
    · rw [List.mem_singleton.mp h]
      exact cueBin1_wfb

lemma cueEx_set151 : Cuesheet.set_location cueEx 151 =
    .ok { cueEx with location := ⟨0, 1, 151, 1⟩ } := by
  have hst : scanTracks cueBin0.tracks 1 = (some 1, 0) := by decide
  have hscan : scanBins cueEx.bin_files 1 = some (0, 1, 1) := by
    show scanBins [cueBin0, cueBin1] 1 = some (0, 1, 1)
    rw [scanBins]
    rw [if_pos (by rw [cueBin0_ns]; omega)]
    rw [hst]
  unfold Cuesheet.set_location
  rw [if_neg (by omega), show (151 - 150 : Nat) = 1 from rfl, hscan]

/-- C1 (counterexample): in chdEx2 the second track carries no pregap
metadata, yet track_start(2) substitutes 150 pregap sectors (yielding
index-01 LBA 400, MSF (0,5,25)) where the claim demands 0 for a
non-first track (LBA 250, MSF (0,3,25)); and on the first track, where
the claim demands a 150-sector substitute, current_index substitutes 0
and so reports index 1 at track-local LBA 10, inside what the claim
regards as the pregap. -/
theorem chd_pregap_substitution_counterexample :
    ((chdEx2.tracks.getD 1 default).track_info.pregap = none ∧
      (chdEx2.tracks.getD 1 default).start_lba = 250 ∧
      ChdImage.track_start chdEx2 2 = .ok ⟨0, 5, 25⟩ ∧
      MsfIndex.from_lba 250 = .ok ⟨0, 3, 25⟩ ∧
      (⟨0, 5, 25⟩ : MsfIndex) ≠ ⟨0, 3, 25⟩) ∧
    ((chdEx2.tracks.getD 0 default).track_info.pregap = none ∧
      ChdImage.current_index { chdEx2 with current_lba := 160 } = .ok 1) := by
  exact ⟨⟨by decide, by decide, by decide, by decide, by decide⟩,
    ⟨by decide, by decide⟩⟩

/-- C1 (amended): when a CHD track's metadata carries no pregap value,
track_start and current_track_local_msf substitute 150 pregap sectors
for every track (first or not), and current_index substitutes 0 pregap
sectors for every track: each operation behaves exactly as if the
track's pregap were the substituted constant. -/
theorem chd_pregap_substitution_amended (s : ChdImage) (i : Nat)
    (hi : i < s.tracks.length)
    (hnone : (s.tracks.getD i default).track_info.pregap = none) :
    ChdImage.track_start s (i + 1) =
      ChdImage.track_start (setTrackPregap s i (some 150)) (i + 1) ∧
    (s.current_track = i →
      ChdImage.current_track_local_msf s =
        ChdImage.current_track_local_msf (setTrackPregap s i (some 150)) ∧
      ChdImage.current_index s =
        ChdImage.current_index (setTrackPregap s i (some 0))) := by
  have hlen : ∀ p : Option Nat, (setTrackPregap s i p).tracks.length =
      s.tracks.length := by
    intro p
    unfold setTrackPregap
    simp
  have hget : ∀ p : Option Nat, (setTrackPregap s i p).tracks.getD i default =
      { s.tracks.getD i default with
        track_info := { (s.tracks.getD i default).track_info with pregap := p } } := by
    intro p
    unfold setTrackPregap
    simp only []
    rw [List.getD_eq_getElem _ _ (by simpa using hi)]
    exact List.getElem_set_self _
  have h0 : ¬ (i + 1 = 0) := by omega
  have hle : i + 1 ≤ s.tracks.length := by omega
  have hle2 : i + 1 ≤ (setTrackPregap s i (some 150)).tracks.length := by
    rw [hlen]
    omega
  constructor
  · unfold ChdImage.track_start
    rw [if_neg h0, if_neg h0, if_pos hle, if_pos hle2]
    simp only [Nat.add_sub_cancel]
    rw [hget, hnone]
    rfl
  · intro hcur
    subst hcur
    have hct : ∀ p : Option Nat,
        (setTrackPregap s s.current_track p).current_track = s.current_track :=
      fun _ => rfl
    have hcl : ∀ p : Option Nat,
        (setTrackPregap s s.current_track p).current_lba = s.current_lba :=
      fun _ => rfl
    constructor
    · unfold ChdImage.current_track_local_msf
      simp only [hct, hcl]
      rw [hget, hnone]
      rfl
    · unfold ChdImage.current_index
      simp only [hct, hcl]
      rw [hget, hnone]
      rfl

/-- C1 (witness for the amended theorem): instantiated on chdEx2 at its
second track, positioned inside that track. -/
theorem chd_pregap_substitution_amended_witness :
    ChdImage.track_start { chdEx2 with current_track := 1, current_lba := 260 } 2 =
      ChdImage.track_start
        (setTrackPregap { chdEx2 with current_track := 1, current_lba := 260 } 1
          (some 150)) 2 ∧
    ChdImage.current_track_local_msf
        { chdEx2 with current_track := 1, current_lba := 260 } =
      ChdImage.current_track_local_msf
        (setTrackPregap { chdEx2 with current_track := 1, current_lba := 260 } 1
          (some 150)) ∧
    ChdImage.current_index { chdEx2 with current_track := 1, current_lba := 260 } =
      ChdImage.current_index
        (setTrackPregap { chdEx2 with current_track := 1, current_lba := 260 } 1
          (some 0)) := by
  have h := chd_pregap_substitution_amended
    { chdEx2 with current_track := 1, current_lba := 260 } 1 (by decide) (by decide)
  exact ⟨h.1, (h.2 rfl).1, (h.2 rfl).2⟩

/-- C3 (counterexample): from a state of chdEx2 satisfying the position
invariant at the last sector of the disc (LBA 349 in the second track),
advance_position reports EndOfDisc but leaves the current LBA at 350,
one past the disc, where no track contains it: the invariant does not
hold after the advance_position call that reports EndOfDisc, contrary
to the claim's "including the one that reports EndOfDisc". -/
theorem position_invariant_counterexample :
    ChdPosInv { chdEx2 with current_lba := 349, current_track := 1 } ∧
    (ChdImage.advance_position
        { chdEx2 with current_lba := 349, current_track := 1 }).1 =
      .ok (some .EndOfDisc) ∧
    (ChdImage.advance_position
        { chdEx2 with current_lba := 349, current_track := 1 }).2.current_lba =
      350 ∧
    ¬ ChdPosInv (ChdImage.advance_position
        { chdEx2 with current_lba := 349, current_track := 1 }).2 := by
  exact ⟨by decide, by decide, by decide, by decide⟩

/-- C3 (amended): for both backends the position invariant (current
track selection in range and containing the current LBA, except track
index 0 when the current LBA is below 150) holds after every successful
set_location and after every advance_position call that does not report
EndOfDisc; the EndOfDisc step leaves the current LBA one past the disc,
outside every track. -/
theorem position_invariant_amended :
    (∀ (s : ChdImage) (lba : Nat), s.tracks ≠ [] →
      (ChdImage.set_location_lba s lba).1 = .ok () →
      ChdPosInv (ChdImage.set_location_lba s lba).2) ∧
    (∀ s : ChdImage, ChdDiscWF s → ChdPosInv s →
      (ChdImage.advance_position s).1 ≠ .ok (some .EndOfDisc) →
      ChdPosInv (ChdImage.advance_position s).2) ∧
    (∀ (s s2 : Cuesheet) (lba : Nat), CueWF s →
      Cuesheet.set_location s lba = .ok s2 → CuePosInv s2) ∧
    (∀ s : Cuesheet, CueWF s → CuePosInv s →
      (Cuesheet.advance_position s).1 ≠ some .EndOfDisc →
      CuePosInv (Cuesheet.advance_position s).2) := by
  refine ⟨?_, ?_, ?_, ?_⟩
  · exact fun s lba hne h => set_location_lba_ok_inv s lba hne h
  · intro s hwf hpos h
    exact (advance_position_spec s hwf.1 hwf.2.1 hwf.2.2.2 hpos).2.2.2 h
  · exact fun s s2 lba hwf h => cue_set_location_ok_inv s lba s2 hwf h
  · intro s hwf hpos h
    exact (cue_advance_spec s hwf hpos).2.2.2 h

/-- C3 (witness for the amended theorem): instantiated on chdEx2 and
cueEx at concrete positions. -/
theorem position_invariant_amended_witness :
    ChdPosInv (ChdImage.set_location_lba chdEx2 300).2 ∧
    ChdPosInv (ChdImage.advance_position { chdEx2 with current_lba := 200 }).2 ∧
    CuePosInv { cueEx with location := ⟨0, 1, 151, 1⟩ } ∧
    CuePosInv (Cuesheet.advance_position cueEx).2 := by
  refine ⟨?_, ?_, ?_, ?_⟩
  · exact position_invariant_amended.1 chdEx2 300 (by decide) (by decide)
  · exact position_invariant_amended.2.1 { chdEx2 with current_lba := 200 }
      (by decide) (by decide) (by decide)
  · exact position_invariant_amended.2.2.1 cueEx
      { cueEx with location := ⟨0, 1, 151, 1⟩ } 151 cueEx_wf cueEx_set151
  · exact position_invariant_amended.2.2.2 cueEx cueEx_wf (by decide)
      (by decide)

/-- C4: for both backends, from any well-formed state satisfying the
position invariant, advance_position reports TrackChange exactly when
the current track selection changes, EndOfDisc exactly on the step past
the last sector of the disc, and nothing otherwise. -/
theorem advance_event_characterization :
    (∀ s : ChdImage, ChdDiscWF s → ChdPosInv s →
      ((ChdImage.advance_position s).1 = .ok (some .EndOfDisc) ↔
        s.current_lba + 1 = disc_end s) ∧
      ((ChdImage.advance_position s).1 = .ok (some .TrackChange) ↔
        (ChdImage.advance_position s).2.current_track ≠ s.current_track) ∧
      ((ChdImage.advance_position s).1 = .ok none ↔
        ((ChdImage.advance_position s).2.current_track = s.current_track ∧
          s.current_lba + 1 ≠ disc_end s))) ∧
    (∀ s : Cuesheet, CueWF s → CuePosInv s →
      ((Cuesheet.advance_position s).1 = some .EndOfDisc ↔
        s.location.global_lba + 1 = cue_disc_end s) ∧
      ((Cuesheet.advance_position s).1 = some .TrackChange ↔
        Cuesheet.current_track_number (Cuesheet.advance_position s).2 ≠
          Cuesheet.current_track_number s) ∧
      ((Cuesheet.advance_position s).1 = none ↔
        (Cuesheet.current_track_number (Cuesheet.advance_position s).2 =
          Cuesheet.current_track_number s ∧
          s.location.global_lba + 1 ≠ cue_disc_end s))) := by
  constructor
  · intro s hwf hpos
    obtain ⟨a, b, c, -⟩ := advance_position_spec s hwf.1 hwf.2.1 hwf.2.2.2 hpos
    exact ⟨a, b, c⟩
  · intro s hwf hpos
    obtain ⟨a, b, c, -⟩ := cue_advance_spec s hwf hpos
    exact ⟨a, b, c⟩

/-- C4 (witness): at the last sector of the first track of chdEx2 the
advance reports TrackChange, and at the first sector of cueEx's first
track (whose single sector ends the track) the advance likewise reports
TrackChange. -/
theorem advance_event_characterization_witness :
    (ChdImage.advance_position { chdEx2 with current_lba := 249 }).1 =
      .ok (some .TrackChange) ∧
    (Cuesheet.advance_position cueEx).1 = some .TrackChange := by
  constructor
  · exact ((advance_event_characterization.1 { chdEx2 with current_lba := 249 }
      (by decide) (by decide)).2.1).mpr (by decide)
  · exact ((advance_event_characterization.2 cueEx cueEx_wf
      (by decide)).2.1).mpr (by decide)

lemma u32sub_small (a b : Nat) (hb : b ≤ a) (ha : a < 4294967296) :
    u32sub a b = a - b := by
  unfold u32sub
  rw [Nat.mod_eq_of_lt ha, Nat.mod_eq_of_lt (Nat.lt_of_le_of_lt hb ha)]
  omega

/-- C5 (counterexample): in chdEx the second track has a 2-sector pregap
starting at LBA 154; at LBA 156 the track-local LBA equals the pregap
length (the first sector of index 1), yet current_index returns 0, not
the 1 the claim demands; likewise at chdEx's initial position (track 1,
LBA 150, pregap absent so length 0) the track-local LBA 0 equals the
pregap length but current_index returns 0. -/
theorem current_index_counterexample :
    ((chdEx.tracks.getD 1 default).track_info.pregap = some 2 ∧
      (chdEx.tracks.getD 1 default).start_lba = 154 ∧
      ChdImage.current_index { chdEx with current_lba := 156, current_track := 1 } =
        .ok 0) ∧
    ((chdEx.tracks.getD 0 default).track_info.pregap = none ∧
      chdEx.current_lba = 150 ∧
      (chdEx.tracks.getD 0 default).start_lba = 150 ∧
      ChdImage.current_index chdEx = .ok 0) := by
  exact ⟨⟨by decide, by decide, by decide⟩,
    ⟨by decide, by decide, by decide, by decide⟩⟩

/-- C5 (amended): the CUE backend returns index 1 exactly when the
bin-local LBA has reached the track's index-1 LBA (so 1 at the first
sector of index 1); the CHD backend returns index 1 exactly when the
track-local LBA strictly exceeds the pregap length (absent metadata
counting as 0), so it still reports index 0 at the first sector of
index 1. -/
theorem current_index_amended :
    (∀ s : Cuesheet,
      Cuesheet.current_index s =
        .ok (if ((s.bin_files.getD s.location.bin_file_no default).tracks.getD
            s.location.track_in_bin default).index1 ≤ s.location.bin_local_lba
          then 1 else 0)) ∧
    (∀ s : ChdImage, s.current_lba < 4294967296 →
      (s.tracks.getD s.current_track default).start_lba ≤ s.current_lba →
      ChdImage.current_index s =
        .ok (if (s.tracks.getD s.current_track default).track_info.pregap.getD 0 <
            s.current_lba - (s.tracks.getD s.current_track default).start_lba
          then 1 else 0)) := by
  constructor
  · intro s
    unfold Cuesheet.current_index
    split
    · rw [if_pos (by assumption)]
    · rw [if_neg (by assumption)]
  · intro s ha hb
    unfold ChdImage.current_index
    simp only []
    rw [u32sub_small _ _ hb ha]
    split
    · rfl
    · rfl

/-- C5 (witness for the amended theorem): instantiated on cueEx (at the
start of its first track, whose index 1 is 0, giving index 1) and on
chdEx at LBA 157, one past the second track's pregap end, giving
index 1. -/
theorem current_index_amended_witness :
    Cuesheet.current_index cueEx = .ok 1 ∧
    ChdImage.current_index { chdEx with current_lba := 157, current_track := 1 } =
      .ok 1 := by
  constructor
  · rw [current_index_amended.1 cueEx]
    decide
  · rw [current_index_amended.2 { chdEx with current_lba := 157, current_track := 1 }
      (by decide) (by decide)]
    decide

/-- C7: for the CHD backend at an in-range LBA whose containing hunk is
loaded (the state set_location_lba establishes), copy_current_sector
with a 2352-byte buffer returns the 2352 bytes at offset
((current_lba + padding_offset - 150) mod sectors_per_hunk) * 2448 of
the decompressed hunk containing that sector, pair-swapped exactly when
the current track is audio, and leaves the state unchanged; any other
buffer length yields WrongBufferSize. -/
theorem chd_copy_sector_content (s : ChdImage) (h fl : Nat)
    (hge : 150 ≤ s.current_lba)
    (hfl : fl = s.current_lba +
      (s.tracks.getD s.current_track default).padding_offset - 150)
    (hh : h = fl / s.sectors_per_hunk)
    (hcur : s.current_hunk_no = some h)
    (hhunk : s.hunk = s.hunkData h)
    (hle : h ≤ s.num_hunks) :
    ChdImage.copy_current_sector s 2352 =
      (.ok (if (s.tracks.getD s.current_track default).track_type = .Audio
        then ChdImage.swapPairs (((s.hunkData h).drop
          (fl % s.sectors_per_hunk * 2448)).take 2352)
        else ((s.hunkData h).drop (fl % s.sectors_per_hunk * 2448)).take 2352),
       s) ∧
    (∀ n, n ≠ 2352 →
      (ChdImage.copy_current_sector s n).1 = .error (.Chd .WrongBufferSize)) := by
  have h150 : FIRST_TRACK_PREGAP = 150 := rfl
  have hbps : BYTES_PER_SECTOR = 2448 := rfl
  constructor
  · unfold ChdImage.copy_current_sector
    rw [if_neg (by simp)]
    rw [if_neg (by rw [h150]; omega)]
    simp only []
    rw [hcur]
    rw [if_neg (by simp)]
    dsimp only []
    have hhn : ChdImage.hunk_no_for_lba s s.current_lba = .ok h := by
      unfold ChdImage.hunk_no_for_lba
      simp only []
      rw [if_neg (by rw [h150]; omega)]
      rw [h150, ← hfl, ← hh]
      rw [if_neg (by omega)]
    rw [hhn]
    dsimp only []
    rw [hbps, h150, ← hfl, hhunk, hh]
  · intro n hn
    unfold ChdImage.copy_current_sector
    rw [if_pos hn]

/-- C7 (witness): at chdExCopy (LBA 155 in the audio track, one sector
per hunk, hunk 5 loaded) the copy returns the pair-swapped sector bytes,
and a 16-byte buffer is rejected. -/
theorem chd_copy_sector_content_witness :
    ChdImage.copy_current_sector chdExCopy 2352 =
      (.ok (ChdImage.swapPairs
        (((chdEx.hunkData 5).drop (5 % 1 * 2448)).take 2352)), chdExCopy) ∧
    (ChdImage.copy_current_sector chdExCopy 16).1 =
      .error (.Chd .WrongBufferSize) := by
  have h := chd_copy_sector_content chdExCopy 5 5
    (by decide) (by decide) (by decide) rfl rfl (by decide)
  constructor
  · rw [h.1]
    rw [if_pos (by decide)]
    rfl
  · exact h.2 16 (by decide)

lemma cueBin0_len : cueBin0.data.length = 4704 := by
  unfold cueBin0
  dsimp only []
  rw [List.length_map, List.length_range]

lemma cueBin1_len : cueBin1.data.length = 2352 := by
  unfold cueBin1
  dsimp only []
  rw [List.length_replicate]

/-- C8: the CUE backend's copy_current_sector fills the whole buffer
with zero bytes below global LBA 150, and otherwise returns exactly the
buffer's length in bytes from byte offset bin_local_lba * 2352 of the
currently selected bin file (failing with an I/O error when the file is
too short); the state is returned unchanged in every case. -/
theorem cue_copy_sector_content :
    (∀ (s : Cuesheet) (n : Nat), s.location.global_lba < 150 →
      Cuesheet.copy_current_sector s n = (.ok (List.replicate n 0), s)) ∧
    (∀ (s : Cuesheet) (n : Nat), 150 ≤ s.location.global_lba →
      s.location.bin_local_lba * 2352 + n ≤
        (s.bin_files.getD s.location.bin_file_no default).data.length →
      Cuesheet.copy_current_sector s n =
        (.ok (((s.bin_files.getD s.location.bin_file_no default).data.drop
          (s.location.bin_local_lba * 2352)).take n), s)) ∧
    (∀ (s : Cuesheet) (n : Nat), 150 ≤ s.location.global_lba →
      (s.bin_files.getD s.location.bin_file_no default).data.length <
        s.location.bin_local_lba * 2352 + n →
      Cuesheet.copy_current_sector s n = (.error .Io, s)) := by
  refine ⟨?_, ?_, ?_⟩
  · intro s n hlt
    unfold Cuesheet.copy_current_sector
    rw [if_pos hlt]
  · intro s n hge hle
    unfold Cuesheet.copy_current_sector
    rw [if_neg (by omega)]
    simp only []
    rw [if_pos hle]
  · intro s n hge hgt
    unfold Cuesheet.copy_current_sector
    rw [if_neg (by omega)]
    simp only []
    rw [if_neg (by omega)]

/-- C8 (witness): below LBA 150 the cueEx copy zero-fills; at cueEx's
initial position (LBA 150, bin-local 0) it returns the first 2352 bytes
of the first bin file; in the second bin file at bin-local LBA 5 the
one-sector file is too short and the copy fails with an I/O error. -/
theorem cue_copy_sector_content_witness :
    Cuesheet.copy_current_sector { cueEx with location := ⟨0, 0, 100, 0⟩ } 2352 =
      (.ok (List.replicate 2352 0), { cueEx with location := ⟨0, 0, 100, 0⟩ }) ∧
    Cuesheet.copy_current_sector cueEx 2352 =
      (.ok ((cueBin0.data.drop (0 * 2352)).take 2352), cueEx) ∧
    Cuesheet.copy_current_sector { cueEx with location := ⟨1, 0, 152, 5⟩ } 2352 =
      (.error .Io, { cueEx with location := ⟨1, 0, 152, 5⟩ }) := by
  refine ⟨?_, ?_, ?_⟩
  · exact cue_copy_sector_content.1 { cueEx with location := ⟨0, 0, 100, 0⟩ } 2352
      (by decide)
  · have h := cue_copy_sector_content.2.1 cueEx 2352 (by decide) (by
      have hb0 : cueEx.bin_files.getD cueEx.location.bin_file_no default =
          cueBin0 := rfl
      rw [hb0, cueBin0_len]
      decide)
    rw [h]
    rfl
  · exact cue_copy_sector_content.2.2 { cueEx with location := ⟨1, 0, 152, 5⟩ }
      2352 (by decide) (by
      have hb1 : ({ cueEx with location := ⟨1, 0, 152, 5⟩ } :
          Cuesheet).bin_files.getD 1 default = cueBin1 := rfl
      rw [hb1, cueBin1_len]
      decide)

lemma chd_copy_state_fields (s : ChdImage) (n : Nat) (hpos : ChdPosInv s) :
    (ChdImage.copy_current_sector s n).2.current_lba = s.current_lba ∧
    (ChdImage.copy_current_sector s n).2.tracks = s.tracks ∧
    (ChdImage.copy_current_sector s n).2.current_track = s.current_track := by
  have h150 : FIRST_TRACK_PREGAP = 150 := rfl
  unfold ChdImage.copy_current_sector
  by_cases h1 : n ≠ 2352
  · rw [if_pos h1]
    exact ⟨rfl, rfl, rfl⟩
  · rw [if_neg h1]
    by_cases h2 : s.current_lba < FIRST_TRACK_PREGAP
    · rw [if_pos h2]
      exact ⟨rfl, rfl, rfl⟩
    · rw [if_neg h2]
      simp only []
      rcases hopt : s.current_hunk_no with _ | hn
      · rw [if_pos (show (none : Option Nat).isNone = true from rfl)]
        obtain ⟨hl, ht, hct⟩ := set_location_lba_state s s.current_lba
        have hfast : ChdImage.update_current_track
            { s with current_lba := s.current_lba, current_hunk_no := none }
            s.current_lba = .ok s.current_track := by
          exact update_current_track_fast
            { s with current_lba := s.current_lba, current_hunk_no := none }
            s.current_lba (hpos.2.2 (by omega))
        have hctr := hct s.current_track hfast h2
        rcases hr : (ChdImage.set_location_lba s s.current_lba).1 with e | u
        · exact ⟨hl, ht, hctr⟩
        · dsimp only []
          rcases hh2 : ChdImage.hunk_no_for_lba
              (ChdImage.set_location_lba s s.current_lba).2
              (ChdImage.set_location_lba s s.current_lba).2.current_lba
              with e | hno
          · exact ⟨hl, ht, hctr⟩
          · exact ⟨hl, ht, hctr⟩
      · rw [if_neg (by simp)]
        dsimp only []
        rcases hh2 : ChdImage.hunk_no_for_lba s s.current_lba with e | hno
        · exact ⟨rfl, rfl, rfl⟩
        · exact ⟨rfl, rfl, rfl⟩

lemma chd_msf_of_fields (s t : ChdImage) (h : t.current_lba = s.current_lba) :
    ChdImage.current_global_msf t = ChdImage.current_global_msf s := by
  unfold ChdImage.current_global_msf
  rw [h]

lemma chd_tn_of_fields (s t : ChdImage) (h : t.current_track = s.current_track) :
    ChdImage.current_track_number t = ChdImage.current_track_number s := by
  unfold ChdImage.current_track_number
  rw [h]

lemma chd_idx_of_fields (s t : ChdImage) (hl : t.current_lba = s.current_lba)
    (ht : t.tracks = s.tracks) (hc : t.current_track = s.current_track) :
    ChdImage.current_index t = ChdImage.current_index s := by
  unfold ChdImage.current_index
  rw [hl, ht, hc]

/-- C10: a successful copy_current_sector leaves the reported position
unchanged: the CUE backend returns its state as is (in every case, even
on failure), and the CHD backend, from any state satisfying the position
invariant, reports the same current_global_msf, current_track_number and
current_index after the call (only its hunk buffer and cached hunk
number may differ). -/
theorem copy_sector_preserves_position :
    (∀ (s : Cuesheet) (n : Nat), (Cuesheet.copy_current_sector s n).2 = s) ∧
    (∀ (s : ChdImage) (n : Nat) (r : List Nat), ChdPosInv s →
      (ChdImage.copy_current_sector s n).1 = .ok r →
      ChdImage.current_global_msf (ChdImage.copy_current_sector s n).2 =
        ChdImage.current_global_msf s ∧
      ChdImage.current_track_number (ChdImage.copy_current_sector s n).2 =
        ChdImage.current_track_number s ∧
      ChdImage.current_index (ChdImage.copy_current_sector s n).2 =
        ChdImage.current_index s) := by
  constructor
  · intro s n
    unfold Cuesheet.copy_current_sector
    by_cases h1 : s.location.global_lba < 150
    · rw [if_pos h1]
    · rw [if_neg h1]
      simp only []
      split
      · rfl
      · rfl
  · intro s n r hpos hok
    obtain ⟨hl, ht, hc⟩ := chd_copy_state_fields s n hpos
    exact ⟨chd_msf_of_fields s _ hl, chd_tn_of_fields s _ hc,
      chd_idx_of_fields s _ hl ht hc⟩

/-- C10 (witness): instantiated on cueEx and on chdExCopy, whose copy
succeeds with the swapped audio sector. -/
theorem copy_sector_preserves_position_witness :
    (Cuesheet.copy_current_sector cueEx 2352).2 = cueEx ∧
    (ChdImage.current_global_msf (ChdImage.copy_current_sector chdExCopy 2352).2 =
      ChdImage.current_global_msf chdExCopy ∧
     ChdImage.current_track_number
        (ChdImage.copy_current_sector chdExCopy 2352).2 =
      ChdImage.current_track_number chdExCopy ∧
     ChdImage.current_index (ChdImage.copy_current_sector chdExCopy 2352).2 =
      ChdImage.current_index chdExCopy) := by
  constructor
  · exact copy_sector_preserves_position.1 cueEx 2352
  · exact copy_sector_preserves_position.2 chdExCopy 2352
      (ChdImage.swapPairs (((chdEx.hunkData 5).drop (5 % 1 * 2448)).take 2352))
      (by decide) (by rfl)
